import Mathlib

/-!
Verification of the spore instance-pool engine.

The development shallowly embeds the Go sources: `Instance` nodes live in an
explicit heap (`Heap.mem : Addr → Instance`), the intrusive circular
doubly-linked `InstanceList` buckets are represented by a header map
(`Heap.lists : ListId → InstanceList`) whose `root` is an optional address
(`none` models a nil `*Instance`), and every operation that in Go may
dereference a nil pointer returns `Option _`, with `none` modelling the
runtime fault.  Loops over the intrusive ring are fuel-bounded; the fuel is
`Heap.fresh`, the allocation bound, which under the representation invariant
always exceeds the ring length.  Provider calls (tagging, disk
reinitialisation, start/stop, listings) are modelled by oracle parameters:
booleans for call outcomes and explicit lists for the paginated listings,
which the code aggregates before using.
-/

namespace Spore

/-- Heap address of an `Instance` node (a `*Instance` value is `Option Addr`). -/
abbrev Addr := Nat

/-- Identity of an `InstanceList` object (a `*InstanceList` value). -/
abbrev ListId := Nat

/-- The fields of `ecs.InstanceAttributesType` that the code reads. -/
structure AttrsT where
  instanceId : String
  status : String
  imageId : String
deriving DecidableEq, Repr

/-- The fields of `ecs.DiskItemType` that the code reads. -/
structure DiskT where
  diskId : String
  instanceId : String
deriving DecidableEq, Repr

/-- One heap node: `type Instance struct { Attrs; Disk; next, prev *Instance; list *InstanceList }`. -/
structure Instance where
  attrs : AttrsT
  disk : DiskT
  next : Option Addr
  prev : Option Addr
  list : Option ListId
deriving DecidableEq, Repr

/-- The Go zero value `new(Instance)`: empty strings, nil pointers. -/
def Instance.zero : Instance :=
  ⟨⟨"", "", ""⟩, ⟨"", ""⟩, none, none, none⟩

/-- Header of one list: `type InstanceList struct { root *Instance; size int }`
(the mutex only serialises access and has no sequential content). -/
structure InstanceList where
  root : Option Addr
  size : Int
deriving DecidableEq, Repr

/-- The Go zero value of an `InstanceList`: nil root, size 0. -/
def InstanceList.zero : InstanceList := ⟨none, 0⟩

/-- Pointwise map update, used for the heap and for the Go maps. -/
def upd {α β : Type} [DecidableEq α] (f : α → β) (a : α) (b : β) : α → β :=
  fun x => if x = a then b else f x

theorem upd_self {α β : Type} [DecidableEq α] (f : α → β) (a : α) (b : β) :
    upd f a b a = b := by
  simp [upd]

theorem upd_ne {α β : Type} [DecidableEq α] (f : α → β) (a : α) (b : β)
    {x : α} (h : x ≠ a) : upd f a b x = f x := by
  simp [upd, h]

/-- The mutable store: instance nodes, list headers, and the allocation bound
(`fresh` is the next unused address; all live addresses are below it). -/
structure Heap where
  mem : Addr → Instance
  lists : ListId → InstanceList
  fresh : Addr

/-- Write the `next` field of the node at `a`. -/
def writeNext (h : Heap) (a : Addr) (v : Option Addr) : Heap :=
  { h with mem := upd h.mem a { h.mem a with next := v } }

/-- Write the `prev` field of the node at `a`. -/
def writePrev (h : Heap) (a : Addr) (v : Option Addr) : Heap :=
  { h with mem := upd h.mem a { h.mem a with prev := v } }

/-- Write the `list` back-reference of the node at `a`. -/
def writeList (h : Heap) (a : Addr) (v : Option ListId) : Heap :=
  { h with mem := upd h.mem a { h.mem a with list := v } }

/-- Write the `Attrs` field of the node at `a`. -/
def writeAttrs (h : Heap) (a : Addr) (v : AttrsT) : Heap :=
  { h with mem := upd h.mem a { h.mem a with attrs := v } }

/-- Write the `Disk` field of the node at `a`. -/
def writeDisk (h : Heap) (a : Addr) (v : DiskT) : Heap :=
  { h with mem := upd h.mem a { h.mem a with disk := v } }

/-- Replace the header of list `l`. -/
def setHeader (h : Heap) (l : ListId) (v : InstanceList) : Heap :=
  { h with lists := upd h.lists l v }

/-- `new(Instance)`: allocate a fresh zero node, returning its address. -/
def allocate (h : Heap) : Addr × Heap :=
  (h.fresh, { mem := upd h.mem h.fresh Instance.zero, lists := h.lists, fresh := h.fresh + 1 })

/-- `func (l *InstanceList) Init() *InstanceList`: fresh sentinel root linked to
itself, size zero. -/
def InstanceList.Init (h : Heap) (l : ListId) : Heap :=
  let r := h.fresh
  let h1 := (allocate h).2
  let h2 := writeNext h1 r (some r)
  let h3 := writePrev h2 r (some r)
  setHeader h3 l { root := some r, size := 0 }

/-- `func (l *InstanceList) lazyInit()`: `if l.root.next == nil { l.Init() }`.
On a zero-value list `l.root` is nil, so reading `l.root.next` faults (`none`). -/
def InstanceList.lazyInit (h : Heap) (l : ListId) : Option Heap :=
  match (h.lists l).root with
  | none => none
  | some r => some (if (h.mem r).next = none then InstanceList.Init h l else h)

/-- `func (l *InstanceList) Len() int`. -/
def InstanceList.Len (h : Heap) (l : ListId) : Int :=
  (h.lists l).size

/-- `func (l *InstanceList) insert(e, at *Instance) *Instance`: splice `e`
after `pos`; faults when `pos` or `pos.next` is nil. -/
def InstanceList.insert (h : Heap) (l : ListId) (e : Addr) (pos : Option Addr) :
    Option (Heap × Addr) :=
  match pos with
  | none => none
  | some at1 =>
    let n := (h.mem at1).next
    let h1 := writeNext h at1 (some e)
    let h2 := writePrev h1 e (some at1)
    let h3 := writeNext h2 e n
    match n with
    | none => none
    | some n1 =>
      let h4 := writePrev h3 n1 (some e)
      let h5 := writeList h4 e (some l)
      some (setHeader h5 l { root := (h5.lists l).root, size := (h5.lists l).size + 1 }, e)

/-- The duplicate scan of `Push`: `for n := l.root.next; n != l.root; n = n.next
{ if n.Attrs.InstanceId == e.Attrs.InstanceId { return nil } }`.  Fuel-bounded;
`none` models nil dereference or a traversal that outruns the fuel. -/
def scanDup (h : Heap) (root : Addr) (id : String) : Nat → Option Addr → Option Bool
  | 0, _ => none
  | _ + 1, none => none
  | fuel + 1, some n =>
    if n = root then some false
    else if (h.mem n).attrs.instanceId = id then some true
    else scanDup h root id fuel ((h.mem n).next)

/-- `func (l *InstanceList) Push(e *Instance) *Instance`: lazy-init, duplicate
guard by instance id, then tail insertion at `l.root.prev`.  The returned
pointer is nil exactly when the duplicate guard fired. -/
def InstanceList.Push (h0 : Heap) (l : ListId) (e : Addr) : Option (Heap × Option Addr) :=
  match InstanceList.lazyInit h0 l with
  | none => none
  | some h =>
    match (h.lists l).root with
    | none => none
    | some r =>
      match scanDup h r ((h.mem e).attrs.instanceId) h.fresh ((h.mem r).next) with
      | none => none
      | some true => some (h, none)
      | some false =>
        match InstanceList.insert h l e ((h.mem r).prev) with
        | none => none
        | some (h1, a) => some (h1, some a)

/-- `func (l *InstanceList) Remove(e *Instance) *Instance`: unlink `e`, clear
its link fields, decrement the size of the receiver list.  Faults when
`e.prev` or `e.next` is nil. -/
def InstanceList.Remove (h : Heap) (l : ListId) (e : Addr) : Option (Heap × Addr) :=
  match (h.mem e).prev with
  | none => none
  | some p =>
    let h1 := writeNext h p ((h.mem e).next)
    match (h1.mem e).next with
    | none => none
    | some nx =>
      let h2 := writePrev h1 nx ((h1.mem e).prev)
      let h3 := writeNext h2 e none
      let h4 := writePrev h3 e none
      let h5 := writeList h4 e none
      some (setHeader h5 l { root := (h5.lists l).root, size := (h5.lists l).size - 1 }, e)

/-- The scan of `Find`: first node whose image id matches is removed and
returned; reaching the root yields the nil pointer. -/
def findLoop (h : Heap) (l : ListId) (root : Addr) (imageId : String) :
    Nat → Option Addr → Option (Heap × Option Addr)
  | 0, _ => none
  | _ + 1, none => none
  | fuel + 1, some n =>
    if n = root then some (h, none)
    else if (h.mem n).attrs.imageId = imageId then
      match InstanceList.Remove h l n with
      | none => none
      | some (h1, a) => some (h1, some a)
    else findLoop h l root imageId fuel ((h.mem n).next)

/-- `func (l *InstanceList) Find(imageId string) *Instance`: note there is no
`lazyInit`, so on a zero-value list reading `l.root.next` faults. -/
def InstanceList.Find (h : Heap) (l : ListId) (imageId : String) :
    Option (Heap × Option Addr) :=
  match (h.lists l).root with
  | none => none
  | some r => findLoop h l r imageId h.fresh ((h.mem r).next)

/-- Fuel-bounded ring membership: is `a` reachable from `root.next` strictly
before the traversal returns to `root`?  This is the observable notion of
"linked into the bucket". -/
def ringMemAux (h : Heap) (root a : Addr) : Nat → Option Addr → Bool
  | 0, _ => false
  | _ + 1, none => false
  | fuel + 1, some n =>
    if n = root then false
    else if n = a then true
    else ringMemAux h root a fuel ((h.mem n).next)

/-- Node `a` is linked into the ring of bucket `l`. -/
def inBucket (h : Heap) (l : ListId) (a : Addr) : Bool :=
  match (h.lists l).root with
  | none => false
  | some r => ringMemAux h r a h.fresh ((h.mem r).next)

/-- `func (d *delayer) Wait()`: the computed wait period, with the provider of
randomness modelled by `draw`, the value `d.r.Int63n(delta)` would return
(durations are int64 nanosecond counts, so `Int`).  The `time.After` channel
itself is plumbing outside the sequential model. -/
def delayerWaitPeriod (rangeMin rangeMax : Int) (draw : Int) : Int :=
  let waitPeriod := rangeMin
  let delta := rangeMax - rangeMin
  if 0 < delta then waitPeriod + draw else waitPeriod

/-- Provider API calls an operation can issue, in issue order. -/
inductive ProviderCall where
  | removeTags
  | reInitDisk
  | startInstance
  | stopInstance
  | addTags
deriving DecidableEq, Repr

/-- Errors `Instance.Start` can return. -/
inductive StartErr where
  | invalidState
  | reInitErr
  | startErr
deriving DecidableEq, Repr

/-- Errors `Instance.Stop` can return. -/
inductive StopErr where
  | invalidState
  | stopFail
deriving DecidableEq, Repr

/-- `func (instance *Instance) Start() error`.  Oracles: `tagClearOk` is the
outcome of `client.RemoveTags` (the code discards it), `reInitOk` of
`client.ReInitDisk`, `startOk` of `client.StartInstance`.  The result is the
trace of provider calls issued plus the returned error; no local field is
mutated.  The two-second settle sleep is real time, outside the model. -/
def Instance.Start (h : Heap) (a : Addr) (tagClearOk reInitOk startOk : Bool) :
    List ProviderCall × Option StartErr :=
  if (h.mem a).attrs.status ≠ "Stopped" then ([], some .invalidState)
  else
    match tagClearOk with
    | _ =>
      if reInitOk = false then ([.removeTags, .reInitDisk], some .reInitErr)
      else ([.removeTags, .reInitDisk, .startInstance],
            if startOk then none else some .startErr)

/-- `func (instance *Instance) Stop() error`: guard on Running, best-effort tag
clear, forced stop whose outcome is `stopOk`. -/
def Instance.Stop (h : Heap) (a : Addr) (stopOk : Bool) :
    List ProviderCall × Option StopErr :=
  if (h.mem a).attrs.status ≠ "Running" then ([], some .invalidState)
  else ([.removeTags, .stopInstance], if stopOk then none else some .stopFail)

/-- The cluster: three bucket identities, the `used` and `instances` maps
(Go maps modelled as functions into `Option Addr`), and the cached disk list. -/
structure Cluster where
  starting : ListId
  avavilable : ListId
  stopping : ListId
  used : String → Option Addr
  disks : List DiskT
  instances : String → Option Addr

/-- `func (c *Cluster) Find(instanceId string) *Instance`. -/
def Cluster.Find (c : Cluster) (instanceId : String) : Option Addr :=
  match c.instances instanceId with
  | some inst => some inst
  | none => none

/-- `func (c *Cluster) GetInstance(imageId string) *Instance`: pop from the
available bucket by image id; on tag failure (`tagOk = false`) push the
instance back and return nil; on success record it in `used`. -/
def Cluster.GetInstance (h : Heap) (c : Cluster) (imageId : String) (tagOk : Bool) :
    Option (Heap × Cluster × Option Addr) :=
  match InstanceList.Find h c.avavilable imageId with
  | none => none
  | some (h1, none) => some (h1, c, none)
  | some (h1, some inst) =>
    if tagOk then
      some (h1, { c with used := upd c.used ((h1.mem inst).attrs.instanceId) (some inst) },
            some inst)
    else
      match InstanceList.Push h1 c.avavilable inst with
      | none => none
      | some (h2, _) => some (h2, c, none)

/-- The distinct error outcomes of `Cluster.StopInstance`. -/
inductive StopInstanceErr where
  | notFound
  | notReserved
  | stopFailed (e : StopErr)
deriving DecidableEq, Repr

/-- `func (c *Cluster) StopInstance(instanceId string) error`: not-found and
not-reserved guards, `Stop()` with oracle `stopOk`, then deletion from `used`.
The delayed restart goroutine mutates state asynchronously after a real-time
sleep and is outside this sequential model. -/
def Cluster.StopInstance (h : Heap) (c : Cluster) (instanceId : String) (stopOk : Bool) :
    Heap × Cluster × Option StopInstanceErr :=
  match c.instances instanceId with
  | none => (h, c, some .notFound)
  | some _ =>
    match c.used instanceId with
    | none => (h, c, some .notReserved)
    | some inst =>
      match (Instance.Stop h inst stopOk).2 with
      | some e => (h, c, some (.stopFailed e))
      | none => (h, { c with used := upd c.used ((h.mem inst).attrs.instanceId) none }, none)

/-- `func (c *Cluster) RefreshDisks() error`: replaces the cached disk list
wholesale with the aggregated pages of the provider listing. -/
def Cluster.RefreshDisks (c : Cluster) (disks : List DiskT) : Cluster :=
  { c with disks := disks }

/-- One iteration of the reservation-reconciliation loop of
`RefreshInstances`, for tag-listing entry `rid`: ensure an index record,
remove it from its bucket when bucketed, mark it used. -/
def reserveReconOne (h : Heap) (c : Cluster) (rid : String) : Option (Heap × Cluster) :=
  match c.instances rid with
  | none =>
    let (a, h1) := allocate h
    some (h1, { c with instances := upd c.instances rid (some a),
                       used := upd c.used rid (some a) })
  | some inst =>
    match (h.mem inst).list with
    | none => some (h, { c with used := upd c.used rid (some inst) })
    | some lid =>
      match InstanceList.Remove h lid inst with
      | none => none
      | some (h1, _) => some (h1, { c with used := upd c.used rid (some inst) })

/-- The reservation-reconciliation loop over the tag listing. -/
def reserveRecon : Heap → Cluster → List String → Option (Heap × Cluster)
  | h, c, [] => some (h, c)
  | h, c, rid :: rest =>
    match reserveReconOne h c rid with
    | none => none
    | some (h1, c1) => reserveRecon h1 c1 rest

/-- The disk-resolve loop: first cached disk whose `InstanceId` matches. -/
def findDisk : List DiskT → String → Option DiskT
  | [], _ => none
  | d :: rest, id => if d.instanceId = id then some d else findDisk rest id

/-- The bucket-move pattern of the status dispatch: push when unbucketed,
remove-then-push when in a different bucket, no-op when already in `target`. -/
def moveToList (h : Heap) (target : ListId) (inst : Addr) : Option Heap :=
  match (h.mem inst).list with
  | none =>
    match InstanceList.Push h target inst with
    | none => none
    | some (h1, _) => some h1
  | some lid =>
    if lid ≠ target then
      match InstanceList.Remove h lid inst with
      | none => none
      | some (h1, _) =>
        match InstanceList.Push h1 target inst with
        | none => none
        | some (h2, _) => some h2
    else some h

/-- The status dispatch of `RefreshInstances` (the `switch` on the reported
status), after the record has been re-indexed and its attributes updated.
In the `Stopped` arm `instance.Start()` issues provider calls only and its
error is logged, so it leaves the sequential state unchanged. -/
def statusDispatch (h3 : Heap) (c1 : Cluster) (node : AttrsT) (inst : Addr) :
    Option (Heap × Cluster) :=
  if node.status = "Running" then
    match c1.used node.instanceId with
    | none =>
      match moveToList h3 c1.avavilable inst with
      | none => none
      | some h4 => some (h4, c1)
    | some _ => some (h3, { c1 with used := upd c1.used node.instanceId (some inst) })
  else if node.status = "Starting" then
    match moveToList h3 c1.starting inst with
    | none => none
    | some h4 => some (h4, c1)
  else if node.status = "Stopping" then
    match moveToList h3 c1.stopping inst with
    | none => none
    | some h4 => some (h4, c1)
  else if node.status = "Stopped" then
    match (h3.mem inst).list with
    | some lid =>
      match InstanceList.Remove h3 lid inst with
      | none => none
      | some (h4, _) => some (h4, c1)
    | none => some (h3, c1)
  else some (h3, c1)

/-- One iteration of the status-reconciliation loop of `RefreshInstances`
for listing entry `node`: resolve the record (allocating a fresh one when the
id is unknown), resolve the disk, skip when the disk id is still empty,
re-index, then dispatch on the reported status. -/
def statusReconOne (h : Heap) (c : Cluster) (node : AttrsT) : Option (Heap × Cluster) :=
  let step1 :=
    match c.instances node.instanceId with
    | some a => (a, h)
    | none => allocate h
  let inst := step1.1
  let h1 := step1.2
  let h2 :=
    match findDisk c.disks node.instanceId with
    | some d => writeDisk h1 inst d
    | none => h1
  if (h2.mem inst).disk.diskId = "" then some (h2, c)
  else
    let h3 := writeAttrs h2 inst node
    let c1 := { c with instances := upd c.instances node.instanceId (some inst) }
    statusDispatch h3 c1 node inst

/-- The status-reconciliation loop over the instance listing. -/
def statusRecon : Heap → Cluster → List AttrsT → Option (Heap × Cluster)
  | h, c, [] => some (h, c)
  | h, c, node :: rest =>
    match statusReconOne h c node with
    | none => none
    | some (h1, c1) => statusRecon h1 c1 rest

/-- `func (c *Cluster) RefreshInstances() error`, for a pass whose two
listings completed: `nodes` is the aggregated instance listing and `rids` the
aggregated tag listing.  Reservation reconciliation runs first, then status
reconciliation. -/
def Cluster.RefreshInstances (h : Heap) (c : Cluster) (nodes : List AttrsT)
    (rids : List String) : Option (Heap × Cluster) :=
  match reserveRecon h c rids with
  | none => none
  | some (h1, c1) => statusRecon h1 c1 nodes

/-! ## Pointwise projection lemmas for the heap writers -/

@[simp] theorem writeNext_mem_next (h : Heap) (a : Addr) (v : Option Addr) (b : Addr) :
    ((writeNext h a v).mem b).next = if b = a then v else (h.mem b).next := by
  by_cases hb : b = a <;> simp [writeNext, upd, hb]

@[simp] theorem writeNext_mem_prev (h : Heap) (a : Addr) (v : Option Addr) (b : Addr) :
    ((writeNext h a v).mem b).prev = (h.mem b).prev := by
  by_cases hb : b = a <;> simp [writeNext, upd, hb]

@[simp] theorem writeNext_mem_list (h : Heap) (a : Addr) (v : Option Addr) (b : Addr) :
    ((writeNext h a v).mem b).list = (h.mem b).list := by
  by_cases hb : b = a <;> simp [writeNext, upd, hb]

@[simp] theorem writeNext_mem_attrs (h : Heap) (a : Addr) (v : Option Addr) (b : Addr) :
    ((writeNext h a v).mem b).attrs = (h.mem b).attrs := by
  by_cases hb : b = a <;> simp [writeNext, upd, hb]

@[simp] theorem writeNext_mem_disk (h : Heap) (a : Addr) (v : Option Addr) (b : Addr) :
    ((writeNext h a v).mem b).disk = (h.mem b).disk := by
  by_cases hb : b = a <;> simp [writeNext, upd, hb]

@[simp] theorem writeNext_lists (h : Heap) (a : Addr) (v : Option Addr) :
    (writeNext h a v).lists = h.lists := rfl

@[simp] theorem writeNext_fresh (h : Heap) (a : Addr) (v : Option Addr) :
    (writeNext h a v).fresh = h.fresh := rfl

@[simp] theorem writePrev_mem_next (h : Heap) (a : Addr) (v : Option Addr) (b : Addr) :
    ((writePrev h a v).mem b).next = (h.mem b).next := by
  by_cases hb : b = a <;> simp [writePrev, upd, hb]

@[simp] theorem writePrev_mem_prev (h : Heap) (a : Addr) (v : Option Addr) (b : Addr) :
    ((writePrev h a v).mem b).prev = if b = a then v else (h.mem b).prev := by
  by_cases hb : b = a <;> simp [writePrev, upd, hb]

@[simp] theorem writePrev_mem_list (h : Heap) (a : Addr) (v : Option Addr) (b : Addr) :
    ((writePrev h a v).mem b).list = (h.mem b).list := by
  by_cases hb : b = a <;> simp [writePrev, upd, hb]

@[simp] theorem writePrev_mem_attrs (h : Heap) (a : Addr) (v : Option Addr) (b : Addr) :
    ((writePrev h a v).mem b).attrs = (h.mem b).attrs := by
  by_cases hb : b = a <;> simp [writePrev, upd, hb]

@[simp] theorem writePrev_mem_disk (h : Heap) (a : Addr) (v : Option Addr) (b : Addr) :
    ((writePrev h a v).mem b).disk = (h.mem b).disk := by
  by_cases hb : b = a <;> simp [writePrev, upd, hb]

@[simp] theorem writePrev_lists (h : Heap) (a : Addr) (v : Option Addr) :
    (writePrev h a v).lists = h.lists := rfl

@[simp] theorem writePrev_fresh (h : Heap) (a : Addr) (v : Option Addr) :
    (writePrev h a v).fresh = h.fresh := rfl

@[simp] theorem writeList_mem_next (h : Heap) (a : Addr) (v : Option ListId) (b : Addr) :
    ((writeList h a v).mem b).next = (h.mem b).next := by
  by_cases hb : b = a <;> simp [writeList, upd, hb]

@[simp] theorem writeList_mem_prev (h : Heap) (a : Addr) (v : Option ListId) (b : Addr) :
    ((writeList h a v).mem b).prev = (h.mem b).prev := by
  by_cases hb : b = a <;> simp [writeList, upd, hb]

@[simp] theorem writeList_mem_list (h : Heap) (a : Addr) (v : Option ListId) (b : Addr) :
    ((writeList h a v).mem b).list = if b = a then v else (h.mem b).list := by
  by_cases hb : b = a <;> simp [writeList, upd, hb]

@[simp] theorem writeList_mem_attrs (h : Heap) (a : Addr) (v : Option ListId) (b : Addr) :
    ((writeList h a v).mem b).attrs = (h.mem b).attrs := by
  by_cases hb : b = a <;> simp [writeList, upd, hb]

@[simp] theorem writeList_mem_disk (h : Heap) (a : Addr) (v : Option ListId) (b : Addr) :
    ((writeList h a v).mem b).disk = (h.mem b).disk := by
  by_cases hb : b = a <;> simp [writeList, upd, hb]

@[simp] theorem writeList_lists (h : Heap) (a : Addr) (v : Option ListId) :
    (writeList h a v).lists = h.lists := rfl

@[simp] theorem writeList_fresh (h : Heap) (a : Addr) (v : Option ListId) :
    (writeList h a v).fresh = h.fresh := rfl

@[simp] theorem writeAttrs_mem_next (h : Heap) (a : Addr) (v : AttrsT) (b : Addr) :
    ((writeAttrs h a v).mem b).next = (h.mem b).next := by
  by_cases hb : b = a <;> simp [writeAttrs, upd, hb]

@[simp] theorem writeAttrs_mem_prev (h : Heap) (a : Addr) (v : AttrsT) (b : Addr) :
    ((writeAttrs h a v).mem b).prev = (h.mem b).prev := by
  by_cases hb : b = a <;> simp [writeAttrs, upd, hb]

@[simp] theorem writeAttrs_mem_list (h : Heap) (a : Addr) (v : AttrsT) (b : Addr) :
    ((writeAttrs h a v).mem b).list = (h.mem b).list := by
  by_cases hb : b = a <;> simp [writeAttrs, upd, hb]

@[simp] theorem writeAttrs_mem_attrs (h : Heap) (a : Addr) (v : AttrsT) (b : Addr) :
    ((writeAttrs h a v).mem b).attrs = if b = a then v else (h.mem b).attrs := by
  by_cases hb : b = a <;> simp [writeAttrs, upd, hb]

@[simp] theorem writeAttrs_mem_disk (h : Heap) (a : Addr) (v : AttrsT) (b : Addr) :
    ((writeAttrs h a v).mem b).disk = (h.mem b).disk := by
  by_cases hb : b = a <;> simp [writeAttrs, upd, hb]

@[simp] theorem writeAttrs_lists (h : Heap) (a : Addr) (v : AttrsT) :
    (writeAttrs h a v).lists = h.lists := rfl

@[simp] theorem writeAttrs_fresh (h : Heap) (a : Addr) (v : AttrsT) :
    (writeAttrs h a v).fresh = h.fresh := rfl

@[simp] theorem writeDisk_mem_next (h : Heap) (a : Addr) (v : DiskT) (b : Addr) :
    ((writeDisk h a v).mem b).next = (h.mem b).next := by
  by_cases hb : b = a <;> simp [writeDisk, upd, hb]

@[simp] theorem writeDisk_mem_prev (h : Heap) (a : Addr) (v : DiskT) (b : Addr) :
    ((writeDisk h a v).mem b).prev = (h.mem b).prev := by
  by_cases hb : b = a <;> simp [writeDisk, upd, hb]

@[simp] theorem writeDisk_mem_list (h : Heap) (a : Addr) (v : DiskT) (b : Addr) :
    ((writeDisk h a v).mem b).list = (h.mem b).list := by
  by_cases hb : b = a <;> simp [writeDisk, upd, hb]

@[simp] theorem writeDisk_mem_attrs (h : Heap) (a : Addr) (v : DiskT) (b : Addr) :
    ((writeDisk h a v).mem b).attrs = (h.mem b).attrs := by
  by_cases hb : b = a <;> simp [writeDisk, upd, hb]

@[simp] theorem writeDisk_mem_disk (h : Heap) (a : Addr) (v : DiskT) (b : Addr) :
    ((writeDisk h a v).mem b).disk = if b = a then v else (h.mem b).disk := by
  by_cases hb : b = a <;> simp [writeDisk, upd, hb]

@[simp] theorem writeDisk_lists (h : Heap) (a : Addr) (v : DiskT) :
    (writeDisk h a v).lists = h.lists := rfl

@[simp] theorem writeDisk_fresh (h : Heap) (a : Addr) (v : DiskT) :
    (writeDisk h a v).fresh = h.fresh := rfl

@[simp] theorem setHeader_mem (h : Heap) (l : ListId) (v : InstanceList) :
    (setHeader h l v).mem = h.mem := rfl

@[simp] theorem setHeader_fresh (h : Heap) (l : ListId) (v : InstanceList) :
    (setHeader h l v).fresh = h.fresh := rfl

@[simp] theorem setHeader_lists (h : Heap) (l : ListId) (v : InstanceList) (l2 : ListId) :
    (setHeader h l v).lists l2 = if l2 = l then v else h.lists l2 := by
  by_cases hl : l2 = l <;> simp [setHeader, upd, hl]

@[simp] theorem allocate_fst (h : Heap) : (allocate h).1 = h.fresh := rfl

@[simp] theorem allocate_mem (h : Heap) (b : Addr) :
    ((allocate h).2).mem b = if b = h.fresh then Instance.zero else h.mem b := by
  by_cases hb : b = h.fresh <;> simp [allocate, upd, hb]

@[simp] theorem allocate_lists (h : Heap) : ((allocate h).2).lists = h.lists := rfl

@[simp] theorem allocate_fresh (h : Heap) : ((allocate h).2).fresh = h.fresh + 1 := rfl

/-! ## Ring representation predicate

`ringFrom h root p cur as` states that the traversal of the intrusive ring
that stands at pointer `cur`, having just left node `p`, visits exactly the
nodes of `as` and then reaches `root`, with consistent `prev` pointers all the
way round (including `root.prev` pointing at the last visited node). -/

def ringFrom (h : Heap) (root : Addr) : Addr → Option Addr → List Addr → Prop
  | p, cur, [] => cur = some root ∧ (h.mem root).prev = some p
  | p, cur, a :: rest =>
    cur = some a ∧ a ≠ root ∧ (h.mem a).prev = some p ∧
      ringFrom h root a ((h.mem a).next) rest

/-- Last element of an address list, with default. -/
def lastD : List Addr → Addr → Addr
  | [], d => d
  | a :: rest, _ => lastD rest a

/-- First element of an address list, with default. -/
def firstD : List Addr → Addr → Addr
  | [], d => d
  | a :: _, _ => a

theorem lastD_mem (as : List Addr) (d : Addr) : lastD as d = d ∨ lastD as d ∈ as := by
  induction as generalizing d with
  | nil => left; rfl
  | cons b rest ih =>
    rcases ih b with h1 | h1
    · right; simp [lastD, h1]
    · right; simp [lastD, h1]

/-- A bucket `l` with sentinel `root` currently holds exactly the nodes `as`,
in ring order. -/
structure Rep (h : Heap) (l : ListId) (root : Addr) (as : List Addr) : Prop where
  root_eq : (h.lists l).root = some root
  ring : ringFrom h root root ((h.mem root).next) as
  nodup : (root :: as).Nodup
  bounded : ∀ a ∈ root :: as, a < h.fresh
  size_eq : (h.lists l).size = (as.length : Int)
  listref : ∀ a ∈ as, (h.mem a).list = some l

theorem ringFrom_ne_root (h : Heap) (root : Addr) :
    ∀ (as : List Addr) (p : Addr) (cur : Option Addr),
      ringFrom h root p cur as → ∀ a ∈ as, a ≠ root := by
  intro as
  induction as with
  | nil => intro p cur _ a ha; simp at ha
  | cons b rest ih =>
    intro p cur hr a ha
    obtain ⟨_, hbne, _, htail⟩ := hr
    rcases List.mem_cons.mp ha with h1 | h1
    · exact h1 ▸ hbne
    · exact ih b _ htail a h1

/-- Transfer a ring along a heap change that leaves the link fields of the
segment's nodes and `root.prev` untouched. -/
theorem ringFrom_congr (h h2 : Heap) (root : Addr) :
    ∀ (as : List Addr) (p : Addr) (cur : Option Addr),
      ringFrom h root p cur as →
      (∀ a ∈ as, (h2.mem a).next = (h.mem a).next ∧ (h2.mem a).prev = (h.mem a).prev) →
      (h2.mem root).prev = (h.mem root).prev →
      ringFrom h2 root p cur as := by
  intro as
  induction as with
  | nil =>
    intro p cur hr _ hroot
    exact ⟨hr.1, hroot.trans hr.2⟩
  | cons b rest ih =>
    intro p cur hr hseg hroot
    obtain ⟨hcur, hbne, hprev, htail⟩ := hr
    have hb := hseg b (by simp)
    refine ⟨hcur, hbne, hb.2.trans hprev, ?_⟩
    rw [hb.1]
    exact ih b _ htail (fun a ha => hseg a (by simp [ha])) hroot

/-- The last node of the ring is what `root.prev` points at. -/
theorem ringFrom_root_prev (h : Heap) (root : Addr) :
    ∀ (as : List Addr) (p : Addr) (cur : Option Addr),
      ringFrom h root p cur as → (h.mem root).prev = some (lastD as p) := by
  intro as
  induction as with
  | nil => intro p cur hr; exact hr.2
  | cons b rest ih =>
    intro p cur hr
    exact ih b _ hr.2.2.2

/-- The last node's `next` points back at `root` (anchored form). -/
theorem ringFrom_last_next (h : Heap) (root : Addr) :
    ∀ (as : List Addr) (p : Addr),
      ringFrom h root p ((h.mem p).next) as →
      (h.mem (lastD as p)).next = some root := by
  intro as
  induction as with
  | nil => intro p hr; exact hr.1
  | cons b rest ih =>
    intro p hr
    exact ih b hr.2.2.2

/-- The pointer standing at the head of a segment names its first node
(or `root` when the segment is empty). -/
theorem ringFrom_cur_eq (h : Heap) (root : Addr) (as : List Addr) (p : Addr)
    (cur : Option Addr) (hr : ringFrom h root p cur as) :
    cur = some (firstD as root) := by
  cases as with
  | nil => exact hr.1
  | cons b rest => exact hr.1

/-- Neighbours of a node in the middle of the ring: its `prev` is the last
node before it and its `next` the first node after it. -/
theorem ringFrom_neighbors (h : Heap) (root x : Addr) (as2 : List Addr) :
    ∀ (as1 : List Addr) (p0 : Addr) (cur : Option Addr),
      ringFrom h root p0 cur (as1 ++ x :: as2) →
      (h.mem x).prev = some (lastD as1 p0) ∧
        (h.mem x).next = some (firstD as2 root) := by
  intro as1
  induction as1 with
  | nil =>
    intro p0 cur hr
    obtain ⟨hcur, hxne, hprev, htail⟩ := hr
    exact ⟨hprev, ringFrom_cur_eq h root as2 x _ htail⟩
  | cons b rest ih =>
    intro p0 cur hr
    exact ih b _ hr.2.2.2

/-- A nodup list of naturals bounded by `n` has length at most `n`. -/
theorem length_le_of_nodup_bounded {as : List Nat} {n : Nat} (hnd : as.Nodup)
    (hb : ∀ a ∈ as, a < n) : as.length ≤ n := by
  classical
  have h1 : as.toFinset ⊆ Finset.range n := by
    intro a ha
    simp only [List.mem_toFinset] at ha
    simpa using hb a ha
  have h2 := Finset.card_le_card h1
  rwa [List.toFinset_card_of_nodup hnd, Finset.card_range] at h2

/-- Under a representation, the fuel `h.fresh` strictly dominates the ring
length. -/
theorem Rep.fuel_ok {h : Heap} {l : ListId} {root : Addr} {as : List Addr}
    (hrep : Rep h l root as) : as.length + 1 ≤ h.fresh := by
  have := length_le_of_nodup_bounded hrep.nodup hrep.bounded
  simpa using this

theorem firstD_mem (as : List Addr) (d : Addr) : firstD as d = d ∨ firstD as d ∈ as := by
  cases as with
  | nil => left; rfl
  | cons a rest => right; simp [firstD]

/-- The duplicate scan of `Push` computes exactly "some ring node carries `id`". -/
theorem scanDup_spec (h : Heap) (root : Addr) (id : String) :
    ∀ (as : List Addr) (p : Addr) (cur : Option Addr) (fuel : Nat),
      ringFrom h root p cur as → as.length + 1 ≤ fuel →
      scanDup h root id fuel cur =
        some (decide (∃ a ∈ as, (h.mem a).attrs.instanceId = id)) := by
  intro as
  induction as with
  | nil =>
    intro p cur fuel hr hf
    cases fuel with
    | zero => exact absurd hf (by simp)
    | succ f =>
      rw [hr.1]
      simp [scanDup]
  | cons b rest ih =>
    intro p cur fuel hr hf
    obtain ⟨hcur, hbne, hprev, htail⟩ := hr
    cases fuel with
    | zero => exact absurd hf (by simp)
    | succ f =>
      have hf2 : rest.length + 1 ≤ f := by
        simp only [List.length_cons] at hf
        omega
      rw [hcur]
      simp only [scanDup, if_neg hbne]
      by_cases hid : (h.mem b).attrs.instanceId = id
      · simp [hid]
      · rw [if_neg hid, ih b _ f htail hf2]
        simp [hid]

/-- Ring membership scan, characterised against the representation list. -/
theorem ringMemAux_spec (h : Heap) (root b : Addr) :
    ∀ (as : List Addr) (p : Addr) (cur : Option Addr) (fuel : Nat),
      ringFrom h root p cur as → as.length + 1 ≤ fuel →
      (ringMemAux h root b fuel cur = true ↔ b ∈ as) := by
  intro as
  induction as with
  | nil =>
    intro p cur fuel hr hf
    cases fuel with
    | zero => exact absurd hf (by simp)
    | succ f =>
      rw [hr.1]
      simp [ringMemAux]
  | cons a rest ih =>
    intro p cur fuel hr hf
    obtain ⟨hcur, hane, hprev, htail⟩ := hr
    cases fuel with
    | zero => exact absurd hf (by simp)
    | succ f =>
      have hf2 : rest.length + 1 ≤ f := by
        simp only [List.length_cons] at hf
        omega
      rw [hcur]
      simp only [ringMemAux, if_neg hane]
      by_cases hb : a = b
      · subst hb
        simp
      · rw [if_neg hb]
        rw [ih a _ f htail hf2]
        simp [Ne.symm hb]

/-- Membership in a represented bucket is list membership. -/
theorem inBucket_iff {h : Heap} {l : ListId} {root : Addr} {as : List Addr}
    (hrep : Rep h l root as) (b : Addr) : inBucket h l b = true ↔ b ∈ as := by
  unfold inBucket
  rw [hrep.root_eq]
  exact ringMemAux_spec h root b as root _ h.fresh hrep.ring hrep.fuel_ok

/-- `Find`'s loop returns the nil pointer and the untouched heap when no ring
node matches. -/
theorem findLoop_none (h : Heap) (l : ListId) (root : Addr) (img : String) :
    ∀ (as : List Addr) (p : Addr) (cur : Option Addr) (fuel : Nat),
      ringFrom h root p cur as → as.length + 1 ≤ fuel →
      (∀ a ∈ as, (h.mem a).attrs.imageId ≠ img) →
      findLoop h l root img fuel cur = some (h, none) := by
  intro as
  induction as with
  | nil =>
    intro p cur fuel hr hf _
    cases fuel with
    | zero => exact absurd hf (by simp)
    | succ f =>
      rw [hr.1]
      simp [findLoop]
  | cons a rest ih =>
    intro p cur fuel hr hf hno
    obtain ⟨hcur, hane, hprev, htail⟩ := hr
    cases fuel with
    | zero => exact absurd hf (by simp)
    | succ f =>
      have hf2 : rest.length + 1 ≤ f := by
        simp only [List.length_cons] at hf
        omega
      rw [hcur]
      simp only [findLoop, if_neg hane, if_neg (hno a (by simp))]
      exact ih a _ f htail hf2 (fun b hb => hno b (by simp [hb]))

/-- `Find`'s loop hands the first matching node to `Remove`. -/
theorem findLoop_found (h : Heap) (l : ListId) (root : Addr) (img : String) (x : Addr)
    (as2 : List Addr) (hx : (h.mem x).attrs.imageId = img) :
    ∀ (as1 : List Addr) (p : Addr) (cur : Option Addr) (fuel : Nat),
      ringFrom h root p cur (as1 ++ x :: as2) →
      (as1 ++ x :: as2).length + 1 ≤ fuel →
      (∀ a ∈ as1, (h.mem a).attrs.imageId ≠ img) →
      findLoop h l root img fuel cur =
        (match InstanceList.Remove h l x with
         | none => none
         | some (h1, a) => some (h1, some a)) := by
  intro as1
  induction as1 with
  | nil =>
    intro p cur fuel hr hf _
    obtain ⟨hcur, hxne, hprev, htail⟩ := hr
    cases fuel with
    | zero => exact absurd hf (by simp)
    | succ f =>
      rw [hcur]
      simp only [findLoop, if_neg hxne, if_pos hx]
  | cons a rest ih =>
    intro p cur fuel hr hf hno
    obtain ⟨hcur, hane, hprev, htail⟩ := hr
    cases fuel with
    | zero => exact absurd hf (by simp)
    | succ f =>
      have hf2 : (rest ++ x :: as2).length + 1 ≤ f := by
        simp only [List.length_cons, List.length_append] at hf ⊢
        omega
      rw [hcur]
      simp only [findLoop, if_neg hane, if_neg (hno a (by simp))]
      exact ih a _ f htail hf2 (fun b hb => hno b (by simp [hb]))

/-- Ring surgery for `Remove`: in a heap `hF` that rewires `p.next` to `n`,
`n.prev` to `p` and is otherwise link-identical away from `x`, the ring with
`x` cut out is again a ring. -/
theorem ringFrom_remove (h hF : Heap) (root x p n : Addr) (as2 : List Addr)
    (hnext : ∀ b, b ≠ x → (hF.mem b).next = if b = p then some n else (h.mem b).next)
    (hprev : ∀ b, b ≠ x → (hF.mem b).prev = if b = n then some p else (h.mem b).prev)
    (hrx : root ≠ x) (hxas2 : x ∉ as2) (hpas2 : p ∉ as2)
    (hn2 : (as2 = [] ∧ n = root) ∨ ∃ t2, as2 = n :: t2 ∧ n ∉ t2) :
    ∀ (as1 : List Addr) (p0 : Addr),
      ringFrom h root p0 ((h.mem p0).next) (as1 ++ x :: as2) →
      p = lastD as1 p0 →
      p0 ∉ as1 ++ x :: as2 →
      x ∉ as1 → (∀ b ∈ as1, b ∉ as2) → (∀ b ∈ as1, b ≠ n) → as1.Nodup →
      ringFrom hF root p0 ((hF.mem p0).next) (as1 ++ as2) := by
  intro as1
  induction as1 with
  | nil =>
    intro p0 hr hp hp0 _ _ _ _
    obtain ⟨hcx, hxr, hxprev, htail⟩ := hr
    have hpp0 : p = p0 := by simpa [lastD] using hp
    have hp0x : p0 ≠ x := by
      intro he
      exact hp0 (by simp [he])
    have hstep : (hF.mem p0).next = some n := by
      rw [hnext p0 hp0x, if_pos hpp0.symm]
    rcases hn2 with ⟨h2nil, hnroot⟩ | ⟨t2, ht2, hnt2⟩
    · subst h2nil
      refine ⟨by rw [hstep, hnroot], ?_⟩
      rw [hprev root hrx, if_pos hnroot.symm, hpp0]
    · subst ht2
      obtain ⟨hxn, hnr, hnprev, htail2⟩ := htail
      have hnx : n ≠ x := by
        intro he
        exact hxas2 (by simp [← he])
      have hnp : n ≠ p := by
        intro he
        exact hpas2 (by simp [← he])
      refine ⟨by rw [hstep], hnr, ?_, ?_⟩
      · rw [hprev n hnx, if_pos rfl, hpp0]
      · rw [hnext n hnx, if_neg hnp]
        refine ringFrom_congr h hF root t2 n _ htail2 ?_ ?_
        · intro b hb
          have hbx : b ≠ x := fun he => hxas2 (by simp [← he, hb])
          have hbp : b ≠ p := fun he => hpas2 (by simp [← he, hb])
          have hbn : b ≠ n := fun he => hnt2 (he ▸ hb)
          rw [hnext b hbx, if_neg hbp, hprev b hbx, if_neg hbn]
          exact ⟨rfl, rfl⟩
        · rw [hprev root hrx, if_neg (fun he => hnr he.symm)]
  | cons a rest ih =>
    intro p0 hr hp hp0 hxas1 hdisj hnas1 hnd
    obtain ⟨hca, har, haprev, htail⟩ := hr
    have hp0x : p0 ≠ x := fun he => hp0 (by simp [he])
    have hax : a ≠ x := fun he => hxas1 (by simp [← he])
    have hpa : p = lastD rest a := by
      simpa [lastD] using hp
    have hpin : p ∈ a :: rest := by
      rcases lastD_mem rest a with h1 | h1
      · simp [hpa, h1]
      · simp [hpa, h1]
    have hp0p : p0 ≠ p := by
      intro he
      apply hp0
      rcases List.mem_cons.mp hpin with h1 | h1
      · simp [he, h1]
      · simp [he, h1]
    have han : a ≠ n := hnas1 a (by simp)
    refine ⟨?_, har, ?_, ?_⟩
    · rw [hnext p0 hp0x, if_neg hp0p]
      exact hca
    · rw [hprev a hax, if_neg han]
      exact haprev
    · refine ih a htail hpa ?_ (fun he => hxas1 (by simp [he]))
        (fun b hb => hdisj b (by simp [hb])) (fun b hb => hnas1 b (by simp [hb]))
        (List.Nodup.of_cons hnd)
      intro ha
      rcases List.mem_append.mp ha with h1 | h1
      · exact (List.nodup_cons.mp hnd).1 h1
      · rcases List.mem_cons.mp h1 with h2 | h2
        · exact hax h2
        · exact hdisj a (by simp) h2

/-- Ring surgery for `Push`: appending `e` behind the old last node `t`. -/
theorem ringFrom_push (h hF : Heap) (root e : Addr) (t : Addr)
    (hnext : ∀ b, b ≠ e → (hF.mem b).next = if b = t then some e else (h.mem b).next)
    (hprev : ∀ b, b ≠ e → (hF.mem b).prev = if b = root then some e else (h.mem b).prev)
    (henext : (hF.mem e).next = some root) (heprev : (hF.mem e).prev = some t)
    (heroot : e ≠ root) :
    ∀ (as : List Addr) (p0 : Addr),
      ringFrom h root p0 ((h.mem p0).next) as →
      t = lastD as p0 →
      p0 ∉ as → e ∉ as → e ≠ p0 → as.Nodup →
      ringFrom hF root p0 ((hF.mem p0).next) (as ++ [e]) := by
  intro as
  induction as with
  | nil =>
    intro p0 hr ht hp0 he hep0 _
    have htp0 : t = p0 := by simpa [lastD] using ht
    have hstep : (hF.mem p0).next = some e := by
      rw [hnext p0 (fun hh => hep0 hh.symm), if_pos htp0.symm]
    refine ⟨by rw [hstep], heroot, ?_, henext, ?_⟩
    · rw [heprev, htp0]
    · rw [hprev root (Ne.symm heroot), if_pos rfl]
  | cons a rest ih =>
    intro p0 hr ht hp0 he hep0 hnd
    obtain ⟨hca, har, haprev, htail⟩ := hr
    have hta : t = lastD rest a := by simpa [lastD] using ht
    have htin : t ∈ a :: rest := by
      rcases lastD_mem rest a with h1 | h1
      · simp [hta, h1]
      · simp [hta, h1]
    have hp0t : p0 ≠ t := by
      intro hh
      apply hp0
      exact hh ▸ htin
    have hae : a ≠ e := fun hh => he (by simp [← hh])
    refine ⟨?_, har, ?_, ?_⟩
    · rw [hnext p0 (fun hh => hep0 hh.symm), if_neg hp0t]
      exact hca
    · rw [hprev a hae, if_neg (fun hh => har hh)]
      exact haprev
    · exact ih a htail hta ((List.nodup_cons.mp hnd).1)
        (fun hh => he (by simp [hh])) (fun hh => hae hh.symm)
        (List.Nodup.of_cons hnd)

/-- Decompose a represented bucket's nodup fact into its pieces. -/
theorem Rep.nodup_pieces {h : Heap} {l : ListId} {root x : Addr} {as1 as2 : List Addr}
    (hrep : Rep h l root (as1 ++ x :: as2)) :
    root ∉ as1 ∧ root ≠ x ∧ root ∉ as2 ∧ as1.Nodup ∧ x ∉ as2 ∧ as2.Nodup ∧
      x ∉ as1 ∧ (∀ b ∈ as1, b ∉ as2) := by
  have h0 := hrep.nodup
  simp only [List.nodup_cons, List.nodup_append, List.mem_append,
    List.mem_cons, List.disjoint_cons_right] at h0
  obtain ⟨hroot, has1nd, ⟨hxas2, has2nd⟩, hxas1, hdisj⟩ := h0
  push_neg at hroot
  exact ⟨hroot.1, hroot.2.1, hroot.2.2, has1nd, hxas2, has2nd, hxas1,
    fun b hb1 hb2 => hdisj hb1 hb2⟩

/-- Full specification of `Remove` on a represented bucket: the named node is
unlinked (its link fields cleared), the bucket represents the remaining nodes
in order, the size drops by one, and nothing else is touched. -/
theorem Remove_spec {h : Heap} {l : ListId} {root : Addr} {as1 as2 : List Addr} {x : Addr}
    (hrep : Rep h l root (as1 ++ x :: as2)) :
    ∃ h2, InstanceList.Remove h l x = some (h2, x) ∧
      Rep h2 l root (as1 ++ as2) ∧
      (h2.mem x).next = none ∧ (h2.mem x).prev = none ∧ (h2.mem x).list = none ∧
      (∀ b, b ≠ x → (h2.mem b).list = (h.mem b).list) ∧
      (∀ b, (h2.mem b).attrs = (h.mem b).attrs) ∧
      (∀ b, (h2.mem b).disk = (h.mem b).disk) ∧
      (∀ b, b ≠ x → b ≠ lastD as1 root → (h2.mem b).next = (h.mem b).next) ∧
      (∀ b, b ≠ x → b ≠ firstD as2 root → (h2.mem b).prev = (h.mem b).prev) ∧
      (∀ l2, l2 ≠ l → h2.lists l2 = h.lists l2) ∧
      h2.lists l = ⟨some root, (h.lists l).size - 1⟩ ∧
      h2.fresh = h.fresh := by
  obtain ⟨hras1, hrx, hras2, has1nd, hxas2, has2nd, hxas1, hdisj⟩ := hrep.nodup_pieces
  have hnb := ringFrom_neighbors h root x as2 as1 root _ hrep.ring
  obtain ⟨hxprev, hxnext⟩ := hnb
  have hpx : lastD as1 root ≠ x := by
    rcases lastD_mem as1 root with h1 | h1
    · rw [h1]; exact hrx
    · intro he; exact hxas1 (he ▸ h1)
  have hpas2 : lastD as1 root ∉ as2 := by
    rcases lastD_mem as1 root with h1 | h1
    · rw [h1]; exact hras2
    · exact hdisj _ h1
  have hn2 : (as2 = [] ∧ firstD as2 root = root) ∨
      ∃ t2, as2 = firstD as2 root :: t2 ∧ firstD as2 root ∉ t2 := by
    cases as2 with
    | nil => exact Or.inl ⟨rfl, rfl⟩
    | cons c t2 =>
      exact Or.inr ⟨t2, rfl, (List.nodup_cons.mp has2nd).1⟩
  set p := lastD as1 root with hp
  set n := firstD as2 root with hn
  set hA := writeNext h p (some n) with hhA
  set hB := writePrev hA n (some p) with hhB
  set hC := writeNext hB x none with hhC
  set hD := writePrev hC x none with hhD
  set hE := writeList hD x none with hhE
  set hF := setHeader hE l ⟨(hE.lists l).root, (hE.lists l).size - 1⟩ with hhF
  refine ⟨hF, ?_, ?_⟩
  · unfold InstanceList.Remove
    rw [hxprev]
    simp only [writeNext_mem_next, writeNext_mem_prev, ite_self, hxnext, hxprev,
      hhF, hhE, hhD, hhC, hhB, hhA]
  · have hnext2 : ∀ b, b ≠ x → (hF.mem b).next =
        if b = p then some n else (h.mem b).next := by
      intro b hb
      simp [hhF, hhE, hhD, hhC, hhB, hhA, hb]
    have hprev2 : ∀ b, b ≠ x → (hF.mem b).prev =
        if b = n then some p else (h.mem b).prev := by
      intro b hb
      simp [hhF, hhE, hhD, hhC, hhB, hhA, hb]
    have hlistF : ∀ b, b ≠ x → (hF.mem b).list = (h.mem b).list := by
      intro b hb
      simp [hhF, hhE, hhD, hhC, hhB, hhA, hb]
    have hlistsF : ∀ l2, l2 ≠ l → hF.lists l2 = h.lists l2 := by
      intro l2 hl2
      simp [hhF, hhE, hhD, hhC, hhB, hhA, hl2]
    have hheadF : hF.lists l = ⟨some root, (h.lists l).size - 1⟩ := by
      simp [hhF, hhE, hhD, hhC, hhB, hhA, hrep.root_eq]
    have hring2 := ringFrom_remove h hF root x p n as2 hnext2 hprev2 hrx hxas2 hpas2
      hn2 as1 root hrep.ring hp
      (by
        intro hmem
        rcases List.mem_append.mp hmem with h1 | h1
        · exact hras1 h1
        · rcases List.mem_cons.mp h1 with h2 | h2
          · exact hrx h2
          · exact hras2 h2)
      hxas1 hdisj
      (by
        intro b hb hbn
        rcases firstD_mem as2 root with h1 | h1
        · have hbr := ringFrom_ne_root h root _ root _ hrep.ring b
            (by simp [hb])
          rw [← hn] at h1
          exact hbr (hbn.trans h1)
        · rw [← hn] at h1
          exact hdisj b hb (hbn ▸ h1))
      has1nd
    refine ⟨?_, ?_, ?_, ?_, ?_, ?_, ?_, ?_, ?_, hlistsF, hheadF, ?_⟩
    · constructor
      · rw [hheadF]
      · exact hring2
      · exact hrep.nodup.sublist
          ((List.Sublist.append_left ((List.Sublist.refl as2).cons x) as1).cons₂ root)
      · intro a ha
        have hfr : hF.fresh = h.fresh := by
          simp [hhF, hhE, hhD, hhC, hhB, hhA]
        rw [hfr]
        apply hrep.bounded
        rcases List.mem_cons.mp ha with h1 | h1
        · simp [h1]
        · rcases List.mem_append.mp h1 with h2 | h2
          · simp [h2]
          · simp [h2]
      · rw [hheadF]
        have := hrep.size_eq
        simp only [List.length_append, List.length_cons] at this ⊢
        omega
      · intro a ha
        have hax : a ≠ x := by
          intro he
          rcases List.mem_append.mp ha with h2 | h2
          · exact hxas1 (he ▸ h2)
          · exact hxas2 (he ▸ h2)
        rw [hlistF a hax]
        apply hrep.listref
        rcases List.mem_append.mp ha with h2 | h2
        · simp [h2]
        · simp [h2]
    · simp [hhF, hhE, hhD, hhC, hhB, hhA]
    · simp [hhF, hhE, hhD, hhC, hhB, hhA]
    · simp [hhF, hhE, hhD, hhC, hhB, hhA]
    · exact hlistF
    · intro b
      simp [hhF, hhE, hhD, hhC, hhB, hhA]
    · intro b
      simp [hhF, hhE, hhD, hhC, hhB, hhA]
    · intro b hbx hbp
      rw [hnext2 b hbx, if_neg hbp]
    · intro b hbx hbn
      rw [hprev2 b hbx, if_neg hbn]
    · simp [hhF, hhE, hhD, hhC, hhB, hhA]

/-- On an initialised (represented) bucket, `lazyInit` is the identity. -/
theorem lazyInit_of_rep {h : Heap} {l : ListId} {root : Addr} {as : List Addr}
    (hrep : Rep h l root as) : InstanceList.lazyInit h l = some h := by
  have hcur := ringFrom_cur_eq h root as root _ hrep.ring
  unfold InstanceList.lazyInit
  rw [hrep.root_eq]
  simp [hcur]

/-- `Push` of a duplicate instance id: the state is returned untouched and
the result pointer is nil. -/
theorem Push_spec_dup {h : Heap} {l : ListId} {root : Addr} {as : List Addr}
    (hrep : Rep h l root as) (e : Addr)
    (hdup : ∃ b ∈ as, (h.mem b).attrs.instanceId = (h.mem e).attrs.instanceId) :
    InstanceList.Push h l e = some (h, none) := by
  unfold InstanceList.Push
  simp only [lazyInit_of_rep hrep, hrep.root_eq,
    scanDup_spec h root _ as root _ h.fresh hrep.ring hrep.fuel_ok,
    decide_eq_true hdup]

/-- `Push` of a fresh instance id: tail insertion, back-reference set, size
incremented, everything else untouched. -/
theorem Push_spec_new {h : Heap} {l : ListId} {root : Addr} {as : List Addr}
    (hrep : Rep h l root as) (e : Addr)
    (hdup : ∀ b ∈ as, (h.mem b).attrs.instanceId ≠ (h.mem e).attrs.instanceId)
    (heroot : e ≠ root) (hefresh : e < h.fresh) :
    ∃ h2, InstanceList.Push h l e = some (h2, some e) ∧
      Rep h2 l root (as ++ [e]) ∧
      (h2.mem e).list = some l ∧
      (h2.mem e).next = some root ∧ (h2.mem e).prev = some (lastD as root) ∧
      (∀ b, b ≠ e → (h2.mem b).list = (h.mem b).list) ∧
      (∀ b, (h2.mem b).attrs = (h.mem b).attrs) ∧
      (∀ b, (h2.mem b).disk = (h.mem b).disk) ∧
      (∀ b, b ≠ e → b ≠ lastD as root → (h2.mem b).next = (h.mem b).next) ∧
      (∀ b, b ≠ e → b ≠ root → (h2.mem b).prev = (h.mem b).prev) ∧
      (∀ l2, l2 ≠ l → h2.lists l2 = h.lists l2) ∧
      h2.lists l = ⟨some root, (h.lists l).size + 1⟩ ∧
      h2.fresh = h.fresh := by
  have heas : e ∉ as := fun he => hdup e he rfl
  have hras : root ∉ as := (List.nodup_cons.mp hrep.nodup).1
  have hasnd : as.Nodup := List.Nodup.of_cons hrep.nodup
  set t := lastD as root with ht
  have hte : t ≠ e := by
    rw [ht]
    rcases lastD_mem as root with h1 | h1
    · rw [h1]; exact Ne.symm heroot
    · intro he; exact heas (he ▸ h1)
  have hrootprev : (h.mem root).prev = some t :=
    ringFrom_root_prev h root as root _ hrep.ring
  have htnext : (h.mem t).next = some root :=
    ringFrom_last_next h root as root hrep.ring
  set hA := writeNext h t (some e) with hhA
  set hB := writePrev hA e (some t) with hhB
  set hC := writeNext hB e (some root) with hhC
  set hD := writePrev hC root (some e) with hhD
  set hE := writeList hD e (some l) with hhE
  set hF := setHeader hE l ⟨(hE.lists l).root, (hE.lists l).size + 1⟩ with hhF
  have hnext2 : ∀ b, b ≠ e → (hF.mem b).next =
      if b = t then some e else (h.mem b).next := by
    intro b hb
    simp [hhF, hhE, hhD, hhC, hhB, hhA, hb]
  have hprev2 : ∀ b, b ≠ e → (hF.mem b).prev =
      if b = root then some e else (h.mem b).prev := by
    intro b hb
    simp [hhF, hhE, hhD, hhC, hhB, hhA, hb]
  have henext : (hF.mem e).next = some root := by
    simp [hhF, hhE, hhD, hhC, hhB, hhA, Ne.symm hte]
  have heprev : (hF.mem e).prev = some t := by
    simp [hhF, hhE, hhD, hhC, hhB, hhA, heroot]
  have hlistF : ∀ b, b ≠ e → (hF.mem b).list = (h.mem b).list := by
    intro b hb
    simp [hhF, hhE, hhD, hhC, hhB, hhA, hb]
  have hlistsF : ∀ l2, l2 ≠ l → hF.lists l2 = h.lists l2 := by
    intro l2 hl2
    simp [hhF, hhE, hhD, hhC, hhB, hhA, hl2]
  have hheadF : hF.lists l = ⟨some root, (h.lists l).size + 1⟩ := by
    simp [hhF, hhE, hhD, hhC, hhB, hhA, hrep.root_eq]
  have hfreshF : hF.fresh = h.fresh := by
    simp [hhF, hhE, hhD, hhC, hhB, hhA]
  have hring2 := ringFrom_push h hF root e t hnext2 hprev2 henext heprev heroot
    as root hrep.ring ht hras heas heroot hasnd
  have hcalc : InstanceList.Push h l e = some (hF, some e) := by
    have hfalse : decide (∃ b ∈ as, (h.mem b).attrs.instanceId =
        (h.mem e).attrs.instanceId) = false := by
      simp only [decide_eq_false_iff_not]
      intro ⟨b, hb, hbe⟩
      exact hdup b hb hbe
    unfold InstanceList.Push InstanceList.insert
    simp only [lazyInit_of_rep hrep, hrep.root_eq,
      scanDup_spec h root _ as root _ h.fresh hrep.ring hrep.fuel_ok,
      hfalse, hrootprev, htnext, hhF, hhE, hhD, hhC, hhB, hhA]
  refine ⟨hF, hcalc, ?_, ?_, henext, heprev, hlistF, ?_, ?_, ?_, ?_, hlistsF, hheadF, hfreshF⟩
  · constructor
    · rw [hheadF]
    · exact hring2
    · have hshape : root :: (as ++ [e]) = (root :: as) ++ [e] := by simp
      rw [hshape]
      refine List.nodup_append.mpr ⟨hrep.nodup, List.nodup_singleton e, ?_⟩
      intro b hb hbe
      rcases List.mem_singleton.mp hbe with h1
      rcases List.mem_cons.mp hb with h2 | h2
      · exact heroot (h1 ▸ h2)
      · exact heas (h1 ▸ h2)
    · intro a ha
      rw [hfreshF]
      rcases List.mem_cons.mp ha with h1 | h1
      · exact h1 ▸ hrep.bounded root (by simp)
      · rcases List.mem_append.mp h1 with h2 | h2
        · exact hrep.bounded a (by simp [h2])
        · rw [List.mem_singleton.mp h2]
          exact hefresh
    · rw [hheadF]
      have := hrep.size_eq
      simp only [List.length_append, List.length_singleton]
      omega
    · intro a ha
      rcases List.mem_append.mp ha with h1 | h1
      · have hae : a ≠ e := fun hh => heas (hh ▸ h1)
        rw [hlistF a hae]
        exact hrep.listref a h1
      · rw [List.mem_singleton.mp h1]
        simp [hhF, hhE, hhD, hhC, hhB, hhA]
  · simp [hhF, hhE, hhD, hhC, hhB, hhA]
  · intro b
    simp [hhF, hhE, hhD, hhC, hhB, hhA]
  · intro b
    simp [hhF, hhE, hhD, hhC, hhB, hhA]
  · intro b hbe hbt
    rw [hnext2 b hbe, if_neg hbt]
  · intro b hbe hbr
    rw [hprev2 b hbe, if_neg hbr]

/-- There is always a first match. -/
theorem exists_first_match (P : Addr → Prop) [DecidablePred P] :
    ∀ (as : List Addr), (∃ a ∈ as, P a) →
      ∃ as1 x as2, as = as1 ++ x :: as2 ∧ P x ∧ ∀ b ∈ as1, ¬ P b := by
  intro as
  induction as with
  | nil => intro hex; simp at hex
  | cons a rest ih =>
    intro hex
    by_cases ha : P a
    · exact ⟨[], a, rest, by simp, ha, by simp⟩
    · have hex2 : ∃ b ∈ rest, P b := by
        obtain ⟨b, hb, hPb⟩ := hex
        rcases List.mem_cons.mp hb with h1 | h1
        · exact absurd (h1 ▸ hPb) ha
        · exact ⟨b, h1, hPb⟩
      obtain ⟨as1, x, as2, heq, hPx, hno⟩ := ih hex2
      refine ⟨a :: as1, x, as2, by simp [heq], hPx, ?_⟩
      intro b hb
      rcases List.mem_cons.mp hb with h1 | h1
      · exact h1 ▸ ha
      · exact hno b h1

/-- `Find` with no matching image id: nil result, state untouched. -/
theorem Find_spec_none {h : Heap} {l : ListId} {root : Addr} {as : List Addr}
    {img : String} (hrep : Rep h l root as)
    (hno : ∀ a ∈ as, (h.mem a).attrs.imageId ≠ img) :
    InstanceList.Find h l img = some (h, none) := by
  unfold InstanceList.Find
  rw [hrep.root_eq]
  exact findLoop_none h l root img as root _ h.fresh hrep.ring hrep.fuel_ok hno

/-- `Find` with a match: the first matching node in head-to-tail order is
removed and returned; size drops by one; nothing else is touched. -/
theorem Find_spec_found {h : Heap} {l : ListId} {root : Addr} {as : List Addr}
    {img : String} (hrep : Rep h l root as)
    (hex : ∃ a ∈ as, (h.mem a).attrs.imageId = img) :
    ∃ as1 x as2 h2, as = as1 ++ x :: as2 ∧
      (h.mem x).attrs.imageId = img ∧
      (∀ b ∈ as1, (h.mem b).attrs.imageId ≠ img) ∧
      InstanceList.Find h l img = some (h2, some x) ∧
      InstanceList.Remove h l x = some (h2, x) ∧
      Rep h2 l root (as1 ++ as2) ∧
      (h2.mem x).next = none ∧ (h2.mem x).prev = none ∧ (h2.mem x).list = none ∧
      (∀ b, b ≠ x → (h2.mem b).list = (h.mem b).list) ∧
      (∀ b, (h2.mem b).attrs = (h.mem b).attrs) ∧
      (∀ b, (h2.mem b).disk = (h.mem b).disk) ∧
      (∀ l2, l2 ≠ l → h2.lists l2 = h.lists l2) ∧
      h2.lists l = ⟨some root, (h.lists l).size - 1⟩ ∧
      h2.fresh = h.fresh := by
  obtain ⟨as1, x, as2, heq, hPx, hno⟩ :=
    exists_first_match (fun a => (h.mem a).attrs.imageId = img) as hex
  subst heq
  obtain ⟨h2, hrm, hreps, hxn, hxp, hxl, hlf, hattrs, hdisk, _, _, hlists, hhead, hfresh⟩ :=
    Remove_spec hrep
  refine ⟨as1, x, as2, h2, rfl, hPx, hno, ?_, hrm, hreps, hxn, hxp, hxl, hlf, hattrs,
    hdisk, hlists, hhead, hfresh⟩
  unfold InstanceList.Find
  simp only [hrep.root_eq]
  rw [findLoop_found h l root img x as2 hPx as1 root _ h.fresh hrep.ring
    hrep.fuel_ok hno]
  simp only [hrm]

/-! ## Global well-formedness of the cluster's bucket structure -/

/-- The back-reference invariant for one node: a non-nil `list` field names
one of the three buckets and the node is in that bucket's representation. -/
def backInv (c : Cluster) (s1 s2 s3 : List Addr) (v : Option ListId) (a : Addr) : Prop :=
  match v with
  | none => True
  | some l =>
    (l = c.starting ∧ a ∈ s1) ∨ (l = c.avavilable ∧ a ∈ s2) ∨ (l = c.stopping ∧ a ∈ s3)

/-- Well-formed cluster heap: the three buckets are distinct, each is a
represented ring, the rings (sentinels included) are pairwise disjoint, every
allocated node's back-reference is accurate, and indexed addresses are
allocated non-sentinel nodes. -/
structure WFw (h : Heap) (c : Cluster) (r1 r2 r3 : Addr) (s1 s2 s3 : List Addr) : Prop where
  ne12 : c.starting ≠ c.avavilable
  ne13 : c.starting ≠ c.stopping
  ne23 : c.avavilable ≠ c.stopping
  rep1 : Rep h c.starting r1 s1
  rep2 : Rep h c.avavilable r2 s2
  rep3 : Rep h c.stopping r3 s3
  disj12 : ∀ a, a ∈ r1 :: s1 → a ∈ r2 :: s2 → False
  disj13 : ∀ a, a ∈ r1 :: s1 → a ∈ r3 :: s3 → False
  disj23 : ∀ a, a ∈ r2 :: s2 → a ∈ r3 :: s3 → False
  back : ∀ a, a < h.fresh → backInv c s1 s2 s3 ((h.mem a).list) a
  idx : ∀ id a, c.instances id = some a → a < h.fresh ∧ a ≠ r1 ∧ a ≠ r2 ∧ a ≠ r3

/-- Well-formedness, with the representation data packed away. -/
def WF (h : Heap) (c : Cluster) : Prop :=
  ∃ r1 r2 r3 s1 s2 s3, WFw h c r1 r2 r3 s1 s2 s3

/-- The three buckets of a cluster. -/
def clusterBuckets (c : Cluster) : List ListId :=
  [c.starting, c.avavilable, c.stopping]

/-- Partition property: no node is linked into two of the cluster's buckets. -/
def atMostOneBucket (h : Heap) (c : Cluster) : Prop :=
  ∀ a l l2, l ∈ clusterBuckets c → l2 ∈ clusterBuckets c →
    inBucket h l a = true → inBucket h l2 a = true → l = l2

theorem WFw.atMostOneBuckets {h : Heap} {c : Cluster} {r1 r2 r3 : Addr} {s1 s2 s3 : List Addr}
    (hwf : WFw h c r1 r2 r3 s1 s2 s3) : atMostOneBucket h c := by
  intro a l l2 hl hl2 hin hin2
  have key : ∀ m, m ∈ clusterBuckets c → inBucket h m a = true →
      (m = c.starting ∧ a ∈ s1) ∨ (m = c.avavilable ∧ a ∈ s2) ∨
        (m = c.stopping ∧ a ∈ s3) := by
    intro m hm hina
    simp only [clusterBuckets, List.mem_cons, List.not_mem_nil, or_false] at hm
    rcases hm with h1 | h1 | h1
    · subst h1
      exact Or.inl ⟨rfl, (inBucket_iff hwf.rep1 a).mp hina⟩
    · subst h1
      exact Or.inr (Or.inl ⟨rfl, (inBucket_iff hwf.rep2 a).mp hina⟩)
    · subst h1
      exact Or.inr (Or.inr ⟨rfl, (inBucket_iff hwf.rep3 a).mp hina⟩)
  rcases key l hl hin with ⟨he, hs⟩ | ⟨he, hs⟩ | ⟨he, hs⟩ <;>
    rcases key l2 hl2 hin2 with ⟨he2, hs2⟩ | ⟨he2, hs2⟩ | ⟨he2, hs2⟩
  · rw [he, he2]
  · exact (hwf.disj12 a (by simp [hs]) (by simp [hs2])).elim
  · exact (hwf.disj13 a (by simp [hs]) (by simp [hs2])).elim
  · exact (hwf.disj12 a (by simp [hs2]) (by simp [hs])).elim
  · rw [he, he2]
  · exact (hwf.disj23 a (by simp [hs]) (by simp [hs2])).elim
  · exact (hwf.disj13 a (by simp [hs2]) (by simp [hs])).elim
  · exact (hwf.disj23 a (by simp [hs2]) (by simp [hs])).elim
  · rw [he, he2]

theorem WF.atMostOne {h : Heap} {c : Cluster} (hwf : WF h c) : atMostOneBucket h c := by
  obtain ⟨r1, r2, r3, s1, s2, s3, hw⟩ := hwf
  exact hw.atMostOneBuckets

/-- A node with a nil back-reference is linked into no bucket. -/
theorem notInBucket_of_list_none {h : Heap} {c : Cluster} {r1 r2 r3 : Addr}
    {s1 s2 s3 : List Addr} (hwf : WFw h c r1 r2 r3 s1 s2 s3) (a : Addr)
    (hnone : (h.mem a).list = none) :
    ∀ l ∈ clusterBuckets c, inBucket h l a = false := by
  intro l hl
  simp only [clusterBuckets, List.mem_cons, List.not_mem_nil, or_false] at hl
  rcases hl with h1 | h1 | h1
  · subst h1
    rw [Bool.eq_false_iff]
    intro hin
    have := (inBucket_iff hwf.rep1 a).mp hin
    rw [hwf.rep1.listref a this] at hnone
    cases hnone
  · subst h1
    rw [Bool.eq_false_iff]
    intro hin
    have := (inBucket_iff hwf.rep2 a).mp hin
    rw [hwf.rep2.listref a this] at hnone
    cases hnone
  · subst h1
    rw [Bool.eq_false_iff]
    intro hin
    have := (inBucket_iff hwf.rep3 a).mp hin
    rw [hwf.rep3.listref a this] at hnone
    cases hnone

/-- Representation transfer: a heap change that leaves the ring's link
fields, the member back-references, the header, and (up to growth) the
allocation bound alone preserves the representation. -/
theorem Rep.transfer {h : Heap} {l : ListId} {root : Addr} {as : List Addr}
    (hrep : Rep h l root as) (h2 : Heap)
    (hlink : ∀ b, b ∈ root :: as →
      (h2.mem b).next = (h.mem b).next ∧ (h2.mem b).prev = (h.mem b).prev)
    (hlist : ∀ b ∈ as, (h2.mem b).list = (h.mem b).list)
    (hhead : h2.lists l = h.lists l)
    (hfresh : h.fresh ≤ h2.fresh) : Rep h2 l root as := by
  refine ⟨?_, ?_, hrep.nodup, ?_, ?_, ?_⟩
  · rw [hhead, hrep.root_eq]
  · have hcur : (h2.mem root).next = (h.mem root).next := (hlink root (by simp)).1
    rw [hcur]
    refine ringFrom_congr h h2 root as root _ hrep.ring ?_ (hlink root (by simp)).2
    intro a ha
    exact hlink a (by simp [ha])
  · intro a ha
    exact lt_of_lt_of_le (hrep.bounded a ha) hfresh
  · rw [hhead]
    exact hrep.size_eq
  · intro a ha
    rw [hlist a ha]
    exact hrep.listref a ha

theorem mem_of_decomp {as1 as2 : List Addr} {e b : Addr}
    (hb : b ∈ as1 ++ e :: as2) (hne : b ≠ e) : b ∈ as1 ++ as2 := by
  rcases List.mem_append.mp hb with h1 | h1
  · exact List.mem_append.mpr (Or.inl h1)
  · rcases List.mem_cons.mp h1 with h2 | h2
    · exact absurd h2 hne
    · exact List.mem_append.mpr (Or.inr h2)

theorem mem_decomp_super {as1 as2 : List Addr} {e b : Addr}
    (hb : b ∈ as1 ++ as2) : b ∈ as1 ++ e :: as2 := by
  rcases List.mem_append.mp hb with h1 | h1 <;> simp [h1]

/-- Well-formedness transfer along changes that touch no link field, no list
header, and no allocation bound (attribute and disk writes). -/
theorem WFw.transferAll {h : Heap} {c : Cluster} {r1 r2 r3 : Addr} {s1 s2 s3 : List Addr}
    (hwf : WFw h c r1 r2 r3 s1 s2 s3) (h2 : Heap)
    (hnext : ∀ b, (h2.mem b).next = (h.mem b).next)
    (hprev : ∀ b, (h2.mem b).prev = (h.mem b).prev)
    (hlist : ∀ b, (h2.mem b).list = (h.mem b).list)
    (hlists : h2.lists = h.lists)
    (hfresh : h2.fresh = h.fresh) : WFw h2 c r1 r2 r3 s1 s2 s3 := by
  refine ⟨hwf.ne12, hwf.ne13, hwf.ne23, ?_, ?_, ?_, hwf.disj12, hwf.disj13,
    hwf.disj23, ?_, ?_⟩
  · exact hwf.rep1.transfer h2 (fun b _ => ⟨hnext b, hprev b⟩)
      (fun b _ => hlist b) (by rw [hlists]) (le_of_eq hfresh.symm)
  · exact hwf.rep2.transfer h2 (fun b _ => ⟨hnext b, hprev b⟩)
      (fun b _ => hlist b) (by rw [hlists]) (le_of_eq hfresh.symm)
  · exact hwf.rep3.transfer h2 (fun b _ => ⟨hnext b, hprev b⟩)
      (fun b _ => hlist b) (by rw [hlists]) (le_of_eq hfresh.symm)
  · intro a ha
    rw [hlist a]
    have ha2 : a < h.fresh := by
      rw [← hfresh]
      exact ha
    exact hwf.back a ha2
  · intro id a ha
    rw [hfresh]
    exact hwf.idx id a ha

/-- Allocation preserves well-formedness. -/
theorem WFw_allocate {h : Heap} {c : Cluster} {r1 r2 r3 : Addr} {s1 s2 s3 : List Addr}
    (hwf : WFw h c r1 r2 r3 s1 s2 s3) :
    WFw (allocate h).2 c r1 r2 r3 s1 s2 s3 := by
  have hmem : ∀ b, b < h.fresh → ((allocate h).2).mem b = h.mem b := by
    intro b hb
    have hne : ¬ (b = h.fresh) := Nat.ne_of_lt hb
    rw [allocate_mem, if_neg hne]
  refine ⟨hwf.ne12, hwf.ne13, hwf.ne23, ?_, ?_, ?_, hwf.disj12, hwf.disj13,
    hwf.disj23, ?_, ?_⟩
  · refine hwf.rep1.transfer _ (fun b hb => ?_) (fun b hb => ?_) rfl (by simp)
    · rw [hmem b (hwf.rep1.bounded b hb)]
      exact ⟨rfl, rfl⟩
    · rw [hmem b (hwf.rep1.bounded b (by simp [hb]))]
  · refine hwf.rep2.transfer _ (fun b hb => ?_) (fun b hb => ?_) rfl (by simp)
    · rw [hmem b (hwf.rep2.bounded b hb)]
      exact ⟨rfl, rfl⟩
    · rw [hmem b (hwf.rep2.bounded b (by simp [hb]))]
  · refine hwf.rep3.transfer _ (fun b hb => ?_) (fun b hb => ?_) rfl (by simp)
    · rw [hmem b (hwf.rep3.bounded b hb)]
      exact ⟨rfl, rfl⟩
    · rw [hmem b (hwf.rep3.bounded b (by simp [hb]))]
  · intro a ha
    by_cases hfa : a = h.fresh
    · subst hfa
      rw [allocate_mem, if_pos rfl]
      trivial
    · have ha2 : a < h.fresh := by
        simp only [allocate_fresh] at ha
        exact Nat.lt_of_le_of_ne (Nat.lt_succ_iff.mp ha) hfa
      rw [hmem a ha2]
      exact hwf.back a ha2
  · intro id a ha
    have := hwf.idx id a ha
    simp only [allocate_fresh]
    exact ⟨Nat.lt_succ_of_lt this.1, this.2⟩

/-- Removing a bucketed node (through its accurate back-reference, as the
reconciliation code does) succeeds and preserves well-formedness; the node
ends up unbucketed and only its link fields change. -/
theorem WF_remove {h : Heap} {c : Cluster} {r1 r2 r3 : Addr} {s1 s2 s3 : List Addr}
    (hwf : WFw h c r1 r2 r3 s1 s2 s3) (e : Addr) (lid : ListId)
    (hlid : (h.mem e).list = some lid) (hefresh : e < h.fresh) :
    ∃ h2 s1' s2' s3', InstanceList.Remove h lid e = some (h2, e) ∧
      WFw h2 c r1 r2 r3 s1' s2' s3' ∧
      (h2.mem e).list = none ∧
      (∀ b, b ≠ e → (h2.mem b).list = (h.mem b).list) ∧
      (∀ b, (h2.mem b).attrs = (h.mem b).attrs) ∧
      (∀ b, (h2.mem b).disk = (h.mem b).disk) ∧
      h2.fresh = h.fresh ∧
      (∀ l2, l2 ≠ lid → h2.lists l2 = h.lists l2) ∧
      (∀ b, b ∈ s1' → b ∈ s1) ∧ (∀ b, b ∈ s2' → b ∈ s2) ∧ (∀ b, b ∈ s3' → b ∈ s3) := by
  have hback := hwf.back e hefresh
  rw [hlid] at hback
  simp only [backInv] at hback
  rcases hback with ⟨hl, hmem⟩ | ⟨hl, hmem⟩ | ⟨hl, hmem⟩
  all_goals subst hl
  · obtain ⟨as1, as2, hs⟩ := List.append_of_mem hmem
    subst hs
    obtain ⟨h2, hrm, hreps, hxn, hxp, hxl, hlf, hattrs, hdisk, hnf, hpf, hlists,
      hhead, hfresh⟩ := Remove_spec hwf.rep1
    have hecyc : e ∈ r1 :: (as1 ++ e :: as2) :=
      List.mem_cons.mpr (Or.inr (List.mem_append.mpr (Or.inr (List.mem_cons.mpr (Or.inl rfl)))))
    have hframe : ∀ b, b ∉ r1 :: (as1 ++ e :: as2) →
        (h2.mem b).next = (h.mem b).next ∧ (h2.mem b).prev = (h.mem b).prev := by
      intro b hb
      have hbe : b ≠ e := fun hh => hb (hh ▸ hecyc)
      have hbp : b ≠ lastD as1 r1 := by
        intro hh
        rcases lastD_mem as1 r1 with h1 | h1
        · exact hb (by simp [hh, h1])
        · exact hb (by simp [hh, List.mem_append.mpr (Or.inl h1)])
      have hbn : b ≠ firstD as2 r1 := by
        intro hh
        rcases firstD_mem as2 r1 with h1 | h1
        · exact hb (by simp [hh, h1])
        · exact hb (by simp [hh, List.mem_append.mpr (Or.inr (List.mem_cons.mpr (Or.inr h1)))])
      exact ⟨hnf b hbe hbp, hpf b hbe hbn⟩
    refine ⟨h2, as1 ++ as2, s2, s3, hrm, ?_, hxl, hlf, hattrs, hdisk, hfresh, hlists,
      fun b hb => mem_decomp_super hb, fun b hb => hb, fun b hb => hb⟩
    refine ⟨hwf.ne12, hwf.ne13, hwf.ne23, hreps, ?_, ?_, ?_, ?_, hwf.disj23, ?_, ?_⟩
    · refine hwf.rep2.transfer h2 (fun b hb => ?_) (fun b hb => ?_) ?_
        (le_of_eq hfresh.symm)
      · exact hframe b (fun hh => hwf.disj12 b hh hb)
      · have hbe : b ≠ e := fun hh =>
          hwf.disj12 e hecyc (List.mem_cons.mpr (Or.inr (hh ▸ hb)))
        exact hlf b hbe
      · exact hlists c.avavilable (Ne.symm hwf.ne12)
    · refine hwf.rep3.transfer h2 (fun b hb => ?_) (fun b hb => ?_) ?_
        (le_of_eq hfresh.symm)
      · exact hframe b (fun hh => hwf.disj13 b hh hb)
      · have hbe : b ≠ e := fun hh =>
          hwf.disj13 e hecyc (List.mem_cons.mpr (Or.inr (hh ▸ hb)))
        exact hlf b hbe
      · exact hlists c.stopping (Ne.symm hwf.ne13)
    · intro a ha1 ha2
      refine hwf.disj12 a ?_ ha2
      rcases List.mem_cons.mp ha1 with h1 | h1
      · simp [h1]
      · exact List.mem_cons.mpr (Or.inr (mem_decomp_super h1))
    · intro a ha1 ha2
      refine hwf.disj13 a ?_ ha2
      rcases List.mem_cons.mp ha1 with h1 | h1
      · simp [h1]
      · exact List.mem_cons.mpr (Or.inr (mem_decomp_super h1))
    · intro a ha
      rw [hfresh] at ha
      by_cases hae : a = e
      · subst hae
        rw [hxl]
        trivial
      · rw [hlf a hae]
        have hb := hwf.back a ha
        revert hb
        cases hv : (h.mem a).list with
        | none => intro _; trivial
        | some l2 =>
          simp only [backInv]
          intro hb
          rcases hb with ⟨he2, hm2⟩ | ⟨he2, hm2⟩ | ⟨he2, hm2⟩
          · exact Or.inl ⟨he2, mem_of_decomp hm2 hae⟩
          · exact Or.inr (Or.inl ⟨he2, hm2⟩)
          · exact Or.inr (Or.inr ⟨he2, hm2⟩)
    · intro id a ha
      rw [hfresh]
      exact hwf.idx id a ha
  · obtain ⟨as1, as2, hs⟩ := List.append_of_mem hmem
    subst hs
    obtain ⟨h2, hrm, hreps, hxn, hxp, hxl, hlf, hattrs, hdisk, hnf, hpf, hlists,
      hhead, hfresh⟩ := Remove_spec hwf.rep2
    have hecyc : e ∈ r2 :: (as1 ++ e :: as2) :=
      List.mem_cons.mpr (Or.inr (List.mem_append.mpr (Or.inr (List.mem_cons.mpr (Or.inl rfl)))))
    have hframe : ∀ b, b ∉ r2 :: (as1 ++ e :: as2) →
        (h2.mem b).next = (h.mem b).next ∧ (h2.mem b).prev = (h.mem b).prev := by
      intro b hb
      have hbe : b ≠ e := fun hh => hb (hh ▸ hecyc)
      have hbp : b ≠ lastD as1 r2 := by
        intro hh
        rcases lastD_mem as1 r2 with h1 | h1
        · exact hb (by simp [hh, h1])
        · exact hb (by simp [hh, List.mem_append.mpr (Or.inl h1)])
      have hbn : b ≠ firstD as2 r2 := by
        intro hh
        rcases firstD_mem as2 r2 with h1 | h1
        · exact hb (by simp [hh, h1])
        · exact hb (by simp [hh, List.mem_append.mpr (Or.inr (List.mem_cons.mpr (Or.inr h1)))])
      exact ⟨hnf b hbe hbp, hpf b hbe hbn⟩
    refine ⟨h2, s1, as1 ++ as2, s3, hrm, ?_, hxl, hlf, hattrs, hdisk, hfresh, hlists,
      fun b hb => hb, fun b hb => mem_decomp_super hb, fun b hb => hb⟩
    refine ⟨hwf.ne12, hwf.ne13, hwf.ne23, ?_, hreps, ?_, ?_, hwf.disj13, ?_, ?_, ?_⟩
    · refine hwf.rep1.transfer h2 (fun b hb => ?_) (fun b hb => ?_) ?_
        (le_of_eq hfresh.symm)
      · exact hframe b (fun hh => hwf.disj12 b hb hh)
      · have hbe : b ≠ e := fun hh =>
          hwf.disj12 e (List.mem_cons.mpr (Or.inr (hh ▸ hb))) hecyc
        exact hlf b hbe
      · exact hlists c.starting hwf.ne12
    · refine hwf.rep3.transfer h2 (fun b hb => ?_) (fun b hb => ?_) ?_
        (le_of_eq hfresh.symm)
      · exact hframe b (fun hh => hwf.disj23 b hh hb)
      · have hbe : b ≠ e := fun hh =>
          hwf.disj23 e hecyc (List.mem_cons.mpr (Or.inr (hh ▸ hb)))
        exact hlf b hbe
      · exact hlists c.stopping (Ne.symm hwf.ne23)
    · intro a ha1 ha2
      refine hwf.disj12 a ha1 ?_
      rcases List.mem_cons.mp ha2 with h1 | h1
      · simp [h1]
      · exact List.mem_cons.mpr (Or.inr (mem_decomp_super h1))
    · intro a ha1 ha2
      refine hwf.disj23 a ?_ ha2
      rcases List.mem_cons.mp ha1 with h1 | h1
      · simp [h1]
      · exact List.mem_cons.mpr (Or.inr (mem_decomp_super h1))
    · intro a ha
      rw [hfresh] at ha
      by_cases hae : a = e
      · subst hae
        rw [hxl]
        trivial
      · rw [hlf a hae]
        have hb := hwf.back a ha
        revert hb
        cases hv : (h.mem a).list with
        | none => intro _; trivial
        | some l2 =>
          simp only [backInv]
          intro hb
          rcases hb with ⟨he2, hm2⟩ | ⟨he2, hm2⟩ | ⟨he2, hm2⟩
          · exact Or.inl ⟨he2, hm2⟩
          · exact Or.inr (Or.inl ⟨he2, mem_of_decomp hm2 hae⟩)
          · exact Or.inr (Or.inr ⟨he2, hm2⟩)
    · intro id a ha
      rw [hfresh]
      exact hwf.idx id a ha
  · obtain ⟨as1, as2, hs⟩ := List.append_of_mem hmem
    subst hs
    obtain ⟨h2, hrm, hreps, hxn, hxp, hxl, hlf, hattrs, hdisk, hnf, hpf, hlists,
      hhead, hfresh⟩ := Remove_spec hwf.rep3
    have hecyc : e ∈ r3 :: (as1 ++ e :: as2) :=
      List.mem_cons.mpr (Or.inr (List.mem_append.mpr (Or.inr (List.mem_cons.mpr (Or.inl rfl)))))
    have hframe : ∀ b, b ∉ r3 :: (as1 ++ e :: as2) →
        (h2.mem b).next = (h.mem b).next ∧ (h2.mem b).prev = (h.mem b).prev := by
      intro b hb
      have hbe : b ≠ e := fun hh => hb (hh ▸ hecyc)
      have hbp : b ≠ lastD as1 r3 := by
        intro hh
        rcases lastD_mem as1 r3 with h1 | h1
        · exact hb (by simp [hh, h1])
        · exact hb (by simp [hh, List.mem_append.mpr (Or.inl h1)])
      have hbn : b ≠ firstD as2 r3 := by
        intro hh
        rcases firstD_mem as2 r3 with h1 | h1
        · exact hb (by simp [hh, h1])
        · exact hb (by simp [hh, List.mem_append.mpr (Or.inr (List.mem_cons.mpr (Or.inr h1)))])
      exact ⟨hnf b hbe hbp, hpf b hbe hbn⟩
    refine ⟨h2, s1, s2, as1 ++ as2, hrm, ?_, hxl, hlf, hattrs, hdisk, hfresh, hlists,
      fun b hb => hb, fun b hb => hb, fun b hb => mem_decomp_super hb⟩
    refine ⟨hwf.ne12, hwf.ne13, hwf.ne23, ?_, ?_, hreps, hwf.disj12, ?_, ?_, ?_, ?_⟩
    · refine hwf.rep1.transfer h2 (fun b hb => ?_) (fun b hb => ?_) ?_
        (le_of_eq hfresh.symm)
      · exact hframe b (fun hh => hwf.disj13 b hb hh)
      · have hbe : b ≠ e := fun hh =>
          hwf.disj13 e (List.mem_cons.mpr (Or.inr (hh ▸ hb))) hecyc
        exact hlf b hbe
      · exact hlists c.starting hwf.ne13
    · refine hwf.rep2.transfer h2 (fun b hb => ?_) (fun b hb => ?_) ?_
        (le_of_eq hfresh.symm)
      · exact hframe b (fun hh => hwf.disj23 b hb hh)
      · have hbe : b ≠ e := fun hh =>
          hwf.disj23 e (List.mem_cons.mpr (Or.inr (hh ▸ hb))) hecyc
        exact hlf b hbe
      · exact hlists c.avavilable hwf.ne23
    · intro a ha1 ha2
      refine hwf.disj13 a ha1 ?_
      rcases List.mem_cons.mp ha2 with h1 | h1
      · simp [h1]
      · exact List.mem_cons.mpr (Or.inr (mem_decomp_super h1))
    · intro a ha1 ha2
      refine hwf.disj23 a ha1 ?_
      rcases List.mem_cons.mp ha2 with h1 | h1
      · simp [h1]
      · exact List.mem_cons.mpr (Or.inr (mem_decomp_super h1))
    · intro a ha
      rw [hfresh] at ha
      by_cases hae : a = e
      · subst hae
        rw [hxl]
        trivial
      · rw [hlf a hae]
        have hb := hwf.back a ha
        revert hb
        cases hv : (h.mem a).list with
        | none => intro _; trivial
        | some l2 =>
          simp only [backInv]
          intro hb
          rcases hb with ⟨he2, hm2⟩ | ⟨he2, hm2⟩ | ⟨he2, hm2⟩
          · exact Or.inl ⟨he2, hm2⟩
          · exact Or.inr (Or.inl ⟨he2, hm2⟩)
          · exact Or.inr (Or.inr ⟨he2, mem_of_decomp hm2 hae⟩)
    · intro id a ha
      rw [hfresh]
      exact hwf.idx id a ha

/-- Pushing an unbucketed, allocated, non-sentinel node into one of the
cluster's buckets succeeds (result nil exactly on the duplicate guard) and
preserves well-formedness; only the node's own `list` field changes among
back-references. -/
theorem WF_push {h : Heap} {c : Cluster} {r1 r2 r3 : Addr} {s1 s2 s3 : List Addr}
    (hwf : WFw h c r1 r2 r3 s1 s2 s3) (e : Addr) (lid : ListId)
    (hlid : lid = c.starting ∨ lid = c.avavilable ∨ lid = c.stopping)
    (hnone : (h.mem e).list = none) (hefresh : e < h.fresh)
    (her1 : e ≠ r1) (her2 : e ≠ r2) (her3 : e ≠ r3) :
    ∃ h2 res s1' s2' s3', InstanceList.Push h lid e = some (h2, res) ∧
      WFw h2 c r1 r2 r3 s1' s2' s3' ∧
      (∀ b, b ≠ e → (h2.mem b).list = (h.mem b).list) ∧
      (∀ b, (h2.mem b).attrs = (h.mem b).attrs) ∧
      (∀ b, (h2.mem b).disk = (h.mem b).disk) ∧
      h2.fresh = h.fresh ∧
      (∀ b, b ∈ s1' → b ∈ s1 ∨ b = e) ∧ (∀ b, b ∈ s2' → b ∈ s2 ∨ b = e) ∧
      (∀ b, b ∈ s3' → b ∈ s3 ∨ b = e) := by
  have hes1 : e ∉ s1 := fun hh => by
    rw [hwf.rep1.listref e hh] at hnone
    cases hnone
  have hes2 : e ∉ s2 := fun hh => by
    rw [hwf.rep2.listref e hh] at hnone
    cases hnone
  have hes3 : e ∉ s3 := fun hh => by
    rw [hwf.rep3.listref e hh] at hnone
    cases hnone
  rcases hlid with hl | hl | hl
  all_goals subst hl
  · by_cases hdup : ∃ b ∈ s1, (h.mem b).attrs.instanceId = (h.mem e).attrs.instanceId
    · exact ⟨h, none, s1, s2, s3, Push_spec_dup hwf.rep1 e hdup, hwf,
        fun b _ => rfl, fun b => rfl, fun b => rfl, rfl,
        fun b hb => Or.inl hb, fun b hb => Or.inl hb, fun b hb => Or.inl hb⟩
    · push_neg at hdup
      obtain ⟨h2, hpush, hreps, helist, henext, heprev, hlf, hattrs, hdisk, hnf, hpf,
        hlists, hhead, hfresh⟩ := Push_spec_new hwf.rep1 e hdup her1 hefresh
      have hframe : ∀ b, b ∈ r2 :: s2 ∨ b ∈ r3 :: s3 →
          (h2.mem b).next = (h.mem b).next ∧ (h2.mem b).prev = (h.mem b).prev := by
        intro b hb
        have hbe : b ≠ e := by
          intro hh
          subst hh
          rcases hb with hb | hb
          · rcases List.mem_cons.mp hb with h1 | h1
            · exact her2 h1
            · exact hes2 h1
          · rcases List.mem_cons.mp hb with h1 | h1
            · exact her3 h1
            · exact hes3 h1
        have hbt : b ≠ lastD s1 r1 := by
          intro hh
          have hmem1 : lastD s1 r1 ∈ r1 :: s1 := by
            rcases lastD_mem s1 r1 with h1 | h1
            · simp [h1]
            · simp [h1]
          rcases hb with hb | hb
          · exact hwf.disj12 b (hh ▸ hmem1) hb
          · exact hwf.disj13 b (hh ▸ hmem1) hb
        have hbr : b ≠ r1 := by
          intro hh
          rcases hb with hb | hb
          · exact hwf.disj12 b (by simp [hh]) hb
          · exact hwf.disj13 b (by simp [hh]) hb
        exact ⟨hnf b hbe hbt, hpf b hbe hbr⟩
      refine ⟨h2, some e, s1 ++ [e], s2, s3, hpush, ?_, hlf, hattrs, hdisk, hfresh,
        fun b hb => by
          rcases List.mem_append.mp hb with h1 | h1
          · exact Or.inl h1
          · exact Or.inr (List.mem_singleton.mp h1),
        fun b hb => Or.inl hb, fun b hb => Or.inl hb⟩
      refine ⟨hwf.ne12, hwf.ne13, hwf.ne23, hreps, ?_, ?_, ?_, ?_, hwf.disj23, ?_, ?_⟩
      · refine hwf.rep2.transfer h2 (fun b hb => hframe b (Or.inl hb))
          (fun b hb => ?_) (hlists c.avavilable (Ne.symm hwf.ne12))
          (le_of_eq hfresh.symm)
        have hbe : b ≠ e := fun hh => hes2 (hh ▸ hb)
        exact hlf b hbe
      · refine hwf.rep3.transfer h2 (fun b hb => hframe b (Or.inr hb))
          (fun b hb => ?_) (hlists c.stopping (Ne.symm hwf.ne13))
          (le_of_eq hfresh.symm)
        have hbe : b ≠ e := fun hh => hes3 (hh ▸ hb)
        exact hlf b hbe
      · intro a ha1 ha2
        rcases List.mem_cons.mp ha1 with h1 | h1
        · exact hwf.disj12 a (by simp [h1]) ha2
        · rcases List.mem_append.mp h1 with h2 | h2
          · exact hwf.disj12 a (by simp [h2]) ha2
          · rw [List.mem_singleton.mp h2] at ha2
            rcases List.mem_cons.mp ha2 with h3 | h3
            · exact her2 h3
            · exact hes2 h3
      · intro a ha1 ha2
        rcases List.mem_cons.mp ha1 with h1 | h1
        · exact hwf.disj13 a (by simp [h1]) ha2
        · rcases List.mem_append.mp h1 with h2 | h2
          · exact hwf.disj13 a (by simp [h2]) ha2
          · rw [List.mem_singleton.mp h2] at ha2
            rcases List.mem_cons.mp ha2 with h3 | h3
            · exact her3 h3
            · exact hes3 h3
      · intro a ha
        rw [hfresh] at ha
        by_cases hae : a = e
        · subst hae
          rw [helist]
          exact Or.inl ⟨rfl, by simp⟩
        · rw [hlf a hae]
          have hb := hwf.back a ha
          revert hb
          cases hv : (h.mem a).list with
          | none => intro _; trivial
          | some l2 =>
            simp only [backInv]
            intro hb
            rcases hb with ⟨he2, hm2⟩ | ⟨he2, hm2⟩ | ⟨he2, hm2⟩
            · exact Or.inl ⟨he2, by simp [hm2]⟩
            · exact Or.inr (Or.inl ⟨he2, hm2⟩)
            · exact Or.inr (Or.inr ⟨he2, hm2⟩)
      · intro id a ha
        rw [hfresh]
        exact hwf.idx id a ha
  · by_cases hdup : ∃ b ∈ s2, (h.mem b).attrs.instanceId = (h.mem e).attrs.instanceId
    · exact ⟨h, none, s1, s2, s3, Push_spec_dup hwf.rep2 e hdup, hwf,
        fun b _ => rfl, fun b => rfl, fun b => rfl, rfl,
        fun b hb => Or.inl hb, fun b hb => Or.inl hb, fun b hb => Or.inl hb⟩
    · push_neg at hdup
      obtain ⟨h2, hpush, hreps, helist, henext, heprev, hlf, hattrs, hdisk, hnf, hpf,
        hlists, hhead, hfresh⟩ := Push_spec_new hwf.rep2 e hdup her2 hefresh
      have hframe : ∀ b, b ∈ r1 :: s1 ∨ b ∈ r3 :: s3 →
          (h2.mem b).next = (h.mem b).next ∧ (h2.mem b).prev = (h.mem b).prev := by
        intro b hb
        have hbe : b ≠ e := by
          intro hh
          subst hh
          rcases hb with hb | hb
          · rcases List.mem_cons.mp hb with h1 | h1
            · exact her1 h1
            · exact hes1 h1
          · rcases List.mem_cons.mp hb with h1 | h1
            · exact her3 h1
            · exact hes3 h1
        have hbt : b ≠ lastD s2 r2 := by
          intro hh
          have hmem1 : lastD s2 r2 ∈ r2 :: s2 := by
            rcases lastD_mem s2 r2 with h1 | h1
            · simp [h1]
            · simp [h1]
          rcases hb with hb | hb
          · exact hwf.disj12 b hb (hh ▸ hmem1)
          · exact hwf.disj23 b (hh ▸ hmem1) hb
        have hbr : b ≠ r2 := by
          intro hh
          rcases hb with hb | hb
          · exact hwf.disj12 b hb (by simp [hh])
          · exact hwf.disj23 b (by simp [hh]) hb
        exact ⟨hnf b hbe hbt, hpf b hbe hbr⟩
      refine ⟨h2, some e, s1, s2 ++ [e], s3, hpush, ?_, hlf, hattrs, hdisk, hfresh,
        fun b hb => Or.inl hb,
        fun b hb => by
          rcases List.mem_append.mp hb with h1 | h1
          · exact Or.inl h1
          · exact Or.inr (List.mem_singleton.mp h1),
        fun b hb => Or.inl hb⟩
      refine ⟨hwf.ne12, hwf.ne13, hwf.ne23, ?_, hreps, ?_, ?_, hwf.disj13, ?_, ?_, ?_⟩
      · refine hwf.rep1.transfer h2 (fun b hb => hframe b (Or.inl hb))
          (fun b hb => ?_) (hlists c.starting hwf.ne12)
          (le_of_eq hfresh.symm)
        have hbe : b ≠ e := fun hh => hes1 (hh ▸ hb)
        exact hlf b hbe
      · refine hwf.rep3.transfer h2 (fun b hb => hframe b (Or.inr hb))
          (fun b hb => ?_) (hlists c.stopping (Ne.symm hwf.ne23))
          (le_of_eq hfresh.symm)
        have hbe : b ≠ e := fun hh => hes3 (hh ▸ hb)
        exact hlf b hbe
      · intro a ha1 ha2
        rcases List.mem_cons.mp ha2 with h1 | h1
        · exact hwf.disj12 a ha1 (by simp [h1])
        · rcases List.mem_append.mp h1 with h2 | h2
          · exact hwf.disj12 a ha1 (by simp [h2])
          · rw [List.mem_singleton.mp h2] at ha1
            rcases List.mem_cons.mp ha1 with h3 | h3
            · exact her1 h3
            · exact hes1 h3
      · intro a ha1 ha2
        rcases List.mem_cons.mp ha1 with h1 | h1
        · exact hwf.disj23 a (by simp [h1]) ha2
        · rcases List.mem_append.mp h1 with h2 | h2
          · exact hwf.disj23 a (by simp [h2]) ha2
          · rw [List.mem_singleton.mp h2] at ha2
            rcases List.mem_cons.mp ha2 with h3 | h3
            · exact her3 h3
            · exact hes3 h3
      · intro a ha
        rw [hfresh] at ha
        by_cases hae : a = e
        · subst hae
          rw [helist]
          exact Or.inr (Or.inl ⟨rfl, by simp⟩)
        · rw [hlf a hae]
          have hb := hwf.back a ha
          revert hb
          cases hv : (h.mem a).list with
          | none => intro _; trivial
          | some l2 =>
            simp only [backInv]
            intro hb
            rcases hb with ⟨he2, hm2⟩ | ⟨he2, hm2⟩ | ⟨he2, hm2⟩
            · exact Or.inl ⟨he2, hm2⟩
            · exact Or.inr (Or.inl ⟨he2, by simp [hm2]⟩)
            · exact Or.inr (Or.inr ⟨he2, hm2⟩)
      · intro id a ha
        rw [hfresh]
        exact hwf.idx id a ha
  · by_cases hdup : ∃ b ∈ s3, (h.mem b).attrs.instanceId = (h.mem e).attrs.instanceId
    · exact ⟨h, none, s1, s2, s3, Push_spec_dup hwf.rep3 e hdup, hwf,
        fun b _ => rfl, fun b => rfl, fun b => rfl, rfl,
        fun b hb => Or.inl hb, fun b hb => Or.inl hb, fun b hb => Or.inl hb⟩
    · push_neg at hdup
      obtain ⟨h2, hpush, hreps, helist, henext, heprev, hlf, hattrs, hdisk, hnf, hpf,
        hlists, hhead, hfresh⟩ := Push_spec_new hwf.rep3 e hdup her3 hefresh
      have hframe : ∀ b, b ∈ r1 :: s1 ∨ b ∈ r2 :: s2 →
          (h2.mem b).next = (h.mem b).next ∧ (h2.mem b).prev = (h.mem b).prev := by
        intro b hb
        have hbe : b ≠ e := by
          intro hh
          subst hh
          rcases hb with hb | hb
          · rcases List.mem_cons.mp hb with h1 | h1
            · exact her1 h1
            · exact hes1 h1
          · rcases List.mem_cons.mp hb with h1 | h1
            · exact her2 h1
            · exact hes2 h1
        have hbt : b ≠ lastD s3 r3 := by
          intro hh
          have hmem1 : lastD s3 r3 ∈ r3 :: s3 := by
            rcases lastD_mem s3 r3 with h1 | h1
            · simp [h1]
            · simp [h1]
          rcases hb with hb | hb
          · exact hwf.disj13 b hb (hh ▸ hmem1)
          · exact hwf.disj23 b hb (hh ▸ hmem1)
        have hbr : b ≠ r3 := by
          intro hh
          rcases hb with hb | hb
          · exact hwf.disj13 b hb (by simp [hh])
          · exact hwf.disj23 b hb (by simp [hh])
        exact ⟨hnf b hbe hbt, hpf b hbe hbr⟩
      refine ⟨h2, some e, s1, s2, s3 ++ [e], hpush, ?_, hlf, hattrs, hdisk, hfresh,
        fun b hb => Or.inl hb, fun b hb => Or.inl hb,
        fun b hb => by
          rcases List.mem_append.mp hb with h1 | h1
          · exact Or.inl h1
          · exact Or.inr (List.mem_singleton.mp h1)⟩
      refine ⟨hwf.ne12, hwf.ne13, hwf.ne23, ?_, ?_, hreps, hwf.disj12, ?_, ?_, ?_, ?_⟩
      · refine hwf.rep1.transfer h2 (fun b hb => hframe b (Or.inl hb))
          (fun b hb => ?_) (hlists c.starting hwf.ne13)
          (le_of_eq hfresh.symm)
        have hbe : b ≠ e := fun hh => hes1 (hh ▸ hb)
        exact hlf b hbe
      · refine hwf.rep2.transfer h2 (fun b hb => hframe b (Or.inr hb))
          (fun b hb => ?_) (hlists c.avavilable hwf.ne23)
          (le_of_eq hfresh.symm)
        have hbe : b ≠ e := fun hh => hes2 (hh ▸ hb)
        exact hlf b hbe
      · intro a ha1 ha2
        rcases List.mem_cons.mp ha2 with h1 | h1
        · exact hwf.disj13 a ha1 (by simp [h1])
        · rcases List.mem_append.mp h1 with h2 | h2
          · exact hwf.disj13 a ha1 (by simp [h2])
          · rw [List.mem_singleton.mp h2] at ha1
            rcases List.mem_cons.mp ha1 with h3 | h3
            · exact her1 h3
            · exact hes1 h3
      · intro a ha1 ha2
        rcases List.mem_cons.mp ha2 with h1 | h1
        · exact hwf.disj23 a ha1 (by simp [h1])
        · rcases List.mem_append.mp h1 with h2 | h2
          · exact hwf.disj23 a ha1 (by simp [h2])
          · rw [List.mem_singleton.mp h2] at ha1
            rcases List.mem_cons.mp ha1 with h3 | h3
            · exact her2 h3
            · exact hes2 h3
      · intro a ha
        rw [hfresh] at ha
        by_cases hae : a = e
        · subst hae
          rw [helist]
          exact Or.inr (Or.inr ⟨rfl, by simp⟩)
        · rw [hlf a hae]
          have hb := hwf.back a ha
          revert hb
          cases hv : (h.mem a).list with
          | none => intro _; trivial
          | some l2 =>
            simp only [backInv]
            intro hb
            rcases hb with ⟨he2, hm2⟩ | ⟨he2, hm2⟩ | ⟨he2, hm2⟩
            · exact Or.inl ⟨he2, hm2⟩
            · exact Or.inr (Or.inl ⟨he2, hm2⟩)
            · exact Or.inr (Or.inr ⟨he2, by simp [hm2]⟩)
      · intro id a ha
        rw [hfresh]
        exact hwf.idx id a ha

/-- The bucket-move pattern preserves well-formedness. -/
theorem WF_moveToList {h : Heap} {c : Cluster} {r1 r2 r3 : Addr} {s1 s2 s3 : List Addr}
    (hwf : WFw h c r1 r2 r3 s1 s2 s3) (e : Addr) (target : ListId)
    (htgt : target = c.starting ∨ target = c.avavilable ∨ target = c.stopping)
    (hefresh : e < h.fresh)
    (her1 : e ≠ r1) (her2 : e ≠ r2) (her3 : e ≠ r3) :
    ∃ h2 s1' s2' s3', moveToList h target e = some h2 ∧
      WFw h2 c r1 r2 r3 s1' s2' s3' ∧
      (∀ b, b ≠ e → (h2.mem b).list = (h.mem b).list) ∧
      (∀ b, (h2.mem b).attrs = (h.mem b).attrs) ∧
      (∀ b, (h2.mem b).disk = (h.mem b).disk) ∧
      h2.fresh = h.fresh := by
  cases hv : (h.mem e).list with
  | none =>
    obtain ⟨h2, res, s1', s2', s3', hpush, hwf2, hlf, hattrs, hdisk, hfresh, _, _, _⟩ :=
      WF_push hwf e target htgt hv hefresh her1 her2 her3
    refine ⟨h2, s1', s2', s3', ?_, hwf2, hlf, hattrs, hdisk, hfresh⟩
    unfold moveToList
    simp only [hv, hpush]
  | some lid =>
    by_cases hne : lid ≠ target
    · obtain ⟨hA, t1, t2, t3, hrm, hwfA, helist, hlfA, hattrsA, hdiskA, hfreshA,
        hlistsA, _, _, _⟩ := WF_remove hwf e lid hv hefresh
      obtain ⟨h2, res, s1', s2', s3', hpush, hwf2, hlf, hattrs, hdisk, hfresh, _, _, _⟩ :=
        WF_push hwfA e target htgt helist (by rw [hfreshA]; exact hefresh)
          her1 her2 her3
      refine ⟨h2, s1', s2', s3', ?_, hwf2, ?_, ?_, ?_, ?_⟩
      · unfold moveToList
        simp only [hv, if_pos hne, hrm, hpush]
      · intro b hb
        rw [hlf b hb, hlfA b hb]
      · intro b
        rw [hattrs b, hattrsA b]
      · intro b
        rw [hdisk b, hdiskA b]
      · rw [hfresh, hfreshA]
    · refine ⟨h, s1, s2, s3, ?_, hwf, fun b _ => rfl, fun b => rfl, fun b => rfl, rfl⟩
      unfold moveToList
      simp only [hv, if_neg hne]

/-- A used-map update does not disturb well-formedness. -/
theorem WFw_used {h : Heap} {c : Cluster} {r1 r2 r3 : Addr} {s1 s2 s3 : List Addr}
    (hwf : WFw h c r1 r2 r3 s1 s2 s3) (u : String → Option Addr) :
    WFw h { c with used := u } r1 r2 r3 s1 s2 s3 :=
  ⟨hwf.ne12, hwf.ne13, hwf.ne23, hwf.rep1, hwf.rep2, hwf.rep3, hwf.disj12,
    hwf.disj13, hwf.disj23, hwf.back, hwf.idx⟩

/-- `GetInstance` preserves well-formedness (tag success or failure). -/
theorem WF_GetInstance {h : Heap} {c : Cluster} (hwf : WF h c) (img : String)
    (tagOk : Bool) :
    ∃ h2 c2 res, Cluster.GetInstance h c img tagOk = some (h2, c2, res) ∧
      WF h2 c2 ∧ c2.starting = c.starting ∧ c2.avavilable = c.avavilable ∧
      c2.stopping = c.stopping := by
  obtain ⟨r1, r2, r3, s1, s2, s3, hw⟩ := hwf
  by_cases hex : ∃ a ∈ s2, (h.mem a).attrs.imageId = img
  · obtain ⟨as1, x, as2, h1, heq, himg, hno, hfind, hrmeq2, hreps, hxn, hxp, hxl, hlf,
      hattrs, hdisk, hlists, hhead, hfresh⟩ := Find_spec_found hw.rep2 hex
    have hxmem : x ∈ s2 := by simp [heq]
    have hxfresh : x < h.fresh := hw.rep2.bounded x (by simp [hxmem])
    have hxlist : (h.mem x).list = some c.avavilable := hw.rep2.listref x hxmem
    obtain ⟨hA, t1, t2, t3, hrm, hwfA, helist, hlfA, hattrsA, hdiskA, hfreshA,
      hlistsA, hm1, hm2, hm3⟩ := WF_remove hw x c.avavilable hxlist hxfresh
    have hAeq : hA = h1 := congrArg Prod.fst (Option.some.inj (hrm.symm.trans hrmeq2))
    subst hAeq
    have hxr1 : x ≠ r1 := fun hh =>
      hw.disj12 x (by simp [hh]) (by simp [hxmem])
    have hxr2 : x ≠ r2 := fun hh =>
      (List.nodup_cons.mp hw.rep2.nodup).1 (hh ▸ hxmem)
    have hxr3 : x ≠ r3 := fun hh =>
      hw.disj23 x (by simp [hxmem]) (by simp [hh])
    cases tagOk with
    | true =>
      refine ⟨hA, { c with used := upd c.used ((hA.mem x).attrs.instanceId) (some x) },
        some x, ?_, ?_, rfl, rfl, rfl⟩
      · unfold Cluster.GetInstance
        simp only [hfind]
        rfl
      · exact ⟨r1, r2, r3, t1, t2, t3, WFw_used hwfA _⟩
    | false =>
      obtain ⟨h2, res, s1', s2', s3', hpush, hwf2, hlf2, hattrs2, hdisk2, hfresh2,
        _, _, _⟩ := WF_push hwfA x c.avavilable (Or.inr (Or.inl rfl)) helist
          (by rw [hfreshA]; exact hxfresh) hxr1 hxr2 hxr3
      refine ⟨h2, c, none, ?_, ⟨r1, r2, r3, s1', s2', s3', hwf2⟩, rfl, rfl, rfl⟩
      unfold Cluster.GetInstance
      simp only [hfind, hpush]
      rfl
  · have hfind := Find_spec_none hw.rep2 (by push_neg at hex; exact hex)
    refine ⟨h, c, none, ?_, ⟨r1, r2, r3, s1, s2, s3, hw⟩, rfl, rfl, rfl⟩
    unfold Cluster.GetInstance
    simp only [hfind]

/-- `StopInstance` preserves well-formedness (it never touches the heap or
the buckets). -/
theorem WF_StopInstance {h : Heap} {c : Cluster} (hwf : WF h c) (id : String)
    (stopOk : Bool) :
    WF (Cluster.StopInstance h c id stopOk).1 (Cluster.StopInstance h c id stopOk).2.1 ∧
      (Cluster.StopInstance h c id stopOk).1 = h ∧
      (Cluster.StopInstance h c id stopOk).2.1.starting = c.starting ∧
      (Cluster.StopInstance h c id stopOk).2.1.avavilable = c.avavilable ∧
      (Cluster.StopInstance h c id stopOk).2.1.stopping = c.stopping := by
  obtain ⟨r1, r2, r3, s1, s2, s3, hw⟩ := hwf
  have hres : (Cluster.StopInstance h c id stopOk).1 = h ∧
      ((Cluster.StopInstance h c id stopOk).2.1 = c ∨
       ∃ u, (Cluster.StopInstance h c id stopOk).2.1 = { c with used := u }) := by
    cases hv : c.instances id with
    | none =>
      unfold Cluster.StopInstance
      simp [hv]
    | some a =>
      cases hu : c.used id with
      | none =>
        unfold Cluster.StopInstance
        simp [hv, hu]
      | some inst =>
        cases hs : (Instance.Stop h inst stopOk).2 with
        | some e =>
          unfold Cluster.StopInstance
          simp [hv, hu, hs]
        | none =>
          unfold Cluster.StopInstance
          simp only [hv, hu, hs]
          exact ⟨trivial, Or.inr ⟨_, rfl⟩⟩
  obtain ⟨hh, hc⟩ := hres
  rw [hh]
  rcases hc with hc | ⟨u, hc⟩
  · rw [hc]
    exact ⟨⟨r1, r2, r3, s1, s2, s3, hw⟩, rfl, rfl, rfl, rfl⟩
  · rw [hc]
    exact ⟨⟨r1, r2, r3, s1, s2, s3, WFw_used hw u⟩, rfl, rfl, rfl, rfl⟩

/-- State of a tag-listed identifier after its reservation iteration:
indexed and used at one allocated, unbucketed node. -/
def Pstate (h : Heap) (c : Cluster) (rid : String) : Prop :=
  ∃ a, c.instances rid = some a ∧ c.used rid = some a ∧
    (h.mem a).list = none ∧ a < h.fresh

/-- One reservation-reconciliation iteration succeeds under well-formedness,
preserves it, establishes `Pstate` for its identifier and preserves `Pstate`
for every other identifier. -/
theorem WF_reserveReconOne {h : Heap} {c : Cluster} {r1 r2 r3 : Addr}
    {s1 s2 s3 : List Addr} (hwf : WFw h c r1 r2 r3 s1 s2 s3) (rid : String) :
    ∃ h1 c1 s1' s2' s3', reserveReconOne h c rid = some (h1, c1) ∧
      WFw h1 c1 r1 r2 r3 s1' s2' s3' ∧
      c1.starting = c.starting ∧ c1.avavilable = c.avavilable ∧
      c1.stopping = c.stopping ∧
      Pstate h1 c1 rid ∧
      (∀ rid0, Pstate h c rid0 → Pstate h1 c1 rid0) := by
  have hr1b : r1 < h.fresh := hwf.rep1.bounded r1 (by simp)
  have hr2b : r2 < h.fresh := hwf.rep2.bounded r2 (by simp)
  have hr3b : r3 < h.fresh := hwf.rep3.bounded r3 (by simp)
  cases hv : c.instances rid with
  | none =>
    have hwA := WFw_allocate hwf
    refine ⟨(allocate h).2,
      { c with instances := upd c.instances rid (some h.fresh),
               used := upd c.used rid (some h.fresh) },
      s1, s2, s3, ?_, ?_, rfl, rfl, rfl, ?_, ?_⟩
    · unfold reserveReconOne
      rw [hv]
      rfl
    · refine ⟨hwA.ne12, hwA.ne13, hwA.ne23, hwA.rep1, hwA.rep2, hwA.rep3,
        hwA.disj12, hwA.disj13, hwA.disj23, hwA.back, ?_⟩
      intro id a ha
      by_cases hid : id = rid
      · subst hid
        have ha2 : (some h.fresh : Option Addr) = some a :=
          (upd_self c.instances id (some h.fresh)).symm.trans ha
        cases ha2
        exact ⟨by simp, Nat.ne_of_gt hr1b, Nat.ne_of_gt hr2b, Nat.ne_of_gt hr3b⟩
      · have ha2 : c.instances id = some a :=
          (upd_ne c.instances rid (some h.fresh) hid).symm.trans ha
        have := hwf.idx id a ha2
        exact ⟨by simp only [allocate_fresh]; exact Nat.lt_succ_of_lt this.1, this.2⟩
    · refine ⟨h.fresh, upd_self _ _ _, upd_self _ _ _, ?_, by simp⟩
      rw [allocate_mem, if_pos rfl]
      rfl
    · intro rid0 hp
      obtain ⟨a0, hi0, hu0, hl0, hb0⟩ := hp
      have hne : rid0 ≠ rid := by
        intro hh
        rw [hh, hv] at hi0
        cases hi0
      refine ⟨a0, (upd_ne c.instances rid (some h.fresh) hne).trans hi0,
        (upd_ne c.used rid (some h.fresh) hne).trans hu0, ?_,
        by simp only [allocate_fresh]; exact Nat.lt_succ_of_lt hb0⟩
      rw [allocate_mem, if_neg (Nat.ne_of_lt hb0)]
      exact hl0
  | some inst =>
    have hinst := hwf.idx rid inst hv
    cases hl : (h.mem inst).list with
    | none =>
      refine ⟨h, { c with used := upd c.used rid (some inst) }, s1, s2, s3, ?_,
        WFw_used hwf _, rfl, rfl, rfl, ⟨inst, hv, upd_self _ _ _, hl, hinst.1⟩, ?_⟩
      · unfold reserveReconOne
        simp only [hv, hl]
      · intro rid0 hp
        obtain ⟨a0, hi0, hu0, hl0, hb0⟩ := hp
        by_cases hid : rid0 = rid
        · subst hid
          rw [hv] at hi0
          cases hi0
          exact ⟨inst, hv, upd_self _ _ _, hl0, hb0⟩
        · exact ⟨a0, hi0, (upd_ne c.used rid (some inst) hid).trans hu0, hl0, hb0⟩
    | some lid =>
      obtain ⟨hA, t1, t2, t3, hrm, hwfA, helist, hlfA, hattrsA, hdiskA, hfreshA,
        hlistsA, _, _, _⟩ := WF_remove hwf inst lid hl hinst.1
      refine ⟨hA, { c with used := upd c.used rid (some inst) }, t1, t2, t3, ?_,
        WFw_used hwfA _, rfl, rfl, rfl,
        ⟨inst, hv, upd_self _ _ _, helist, by rw [hfreshA]; exact hinst.1⟩, ?_⟩
      · unfold reserveReconOne
        simp only [hv, hl, hrm]
      · intro rid0 hp
        obtain ⟨a0, hi0, hu0, hl0, hb0⟩ := hp
        by_cases hid : rid0 = rid
        · subst hid
          rw [hv] at hi0
          cases hi0
          exact ⟨inst, hv, upd_self _ _ _, helist, by rw [hfreshA]; exact hinst.1⟩
        · refine ⟨a0, hi0, (upd_ne c.used rid (some inst) hid).trans hu0, ?_,
            by rw [hfreshA]; exact hb0⟩
          by_cases hae : a0 = inst
          · subst hae
            exact helist
          · rw [hlfA a0 hae]
            exact hl0

/-- The reservation-reconciliation loop under well-formedness. -/
theorem WF_reserveRecon : ∀ (rids : List String) {h : Heap} {c : Cluster}
    {r1 r2 r3 : Addr} {s1 s2 s3 : List Addr},
    WFw h c r1 r2 r3 s1 s2 s3 →
    ∃ h1 c1 s1' s2' s3', reserveRecon h c rids = some (h1, c1) ∧
      WFw h1 c1 r1 r2 r3 s1' s2' s3' ∧
      c1.starting = c.starting ∧ c1.avavilable = c.avavilable ∧
      c1.stopping = c.stopping ∧
      (∀ rid0, Pstate h c rid0 → Pstate h1 c1 rid0) ∧
      (∀ rid ∈ rids, Pstate h1 c1 rid) := by
  intro rids
  induction rids with
  | nil =>
    intro h c r1 r2 r3 s1 s2 s3 hwf
    exact ⟨h, c, s1, s2, s3, rfl, hwf, rfl, rfl, rfl, fun _ hp => hp,
      fun rid hrid => absurd hrid (List.not_mem_nil rid)⟩
  | cons rid rest ih =>
    intro h c r1 r2 r3 s1 s2 s3 hwf
    obtain ⟨h1, c1, s1', s2', s3', heq1, hwf1, hb1, hb2, hb3, hp1, hpres1⟩ :=
      WF_reserveReconOne hwf rid
    obtain ⟨h2, c2, s1'', s2'', s3'', heq2, hwf2, hc1, hc2, hc3, hpres2, hall2⟩ :=
      ih hwf1
    refine ⟨h2, c2, s1'', s2'', s3'', ?_, hwf2, hc1.trans hb1, hc2.trans hb2,
      hc3.trans hb3, fun rid0 hp => hpres2 rid0 (hpres1 rid0 hp), ?_⟩
    · unfold reserveRecon
      rw [heq1]
      exact heq2
    · intro rid2 hrid2
      rcases List.mem_cons.mp hrid2 with h1 | h1
      · exact h1 ▸ hpres2 rid hp1
      · exact hall2 rid2 h1

/-- The status dispatch preserves well-formedness. -/
theorem WF_statusDispatch {h3 : Heap} {c1 : Cluster} {r1 r2 r3 : Addr}
    {s1 s2 s3 : List Addr} (hwf : WFw h3 c1 r1 r2 r3 s1 s2 s3) (node : AttrsT)
    (inst : Addr) (hifresh : inst < h3.fresh)
    (hir1 : inst ≠ r1) (hir2 : inst ≠ r2) (hir3 : inst ≠ r3) :
    ∃ h4 c2 s1' s2' s3', statusDispatch h3 c1 node inst = some (h4, c2) ∧
      WFw h4 c2 r1 r2 r3 s1' s2' s3' ∧
      c2.starting = c1.starting ∧ c2.avavilable = c1.avavilable ∧
      c2.stopping = c1.stopping := by
  by_cases hrun : node.status = "Running"
  · cases hu : c1.used node.instanceId with
    | none =>
      obtain ⟨h4, s1', s2', s3', hmove, hwf4, _, _, _, _⟩ :=
        WF_moveToList hwf inst c1.avavilable (Or.inr (Or.inl rfl)) hifresh
          hir1 hir2 hir3
      refine ⟨h4, c1, s1', s2', s3', ?_, hwf4, rfl, rfl, rfl⟩
      unfold statusDispatch
      simp only [if_pos hrun, hu, hmove]
    | some u =>
      refine ⟨h3, { c1 with used := upd c1.used node.instanceId (some inst) },
        s1, s2, s3, ?_, WFw_used hwf _, rfl, rfl, rfl⟩
      unfold statusDispatch
      simp only [if_pos hrun, hu]
  · by_cases hstart : node.status = "Starting"
    · obtain ⟨h4, s1', s2', s3', hmove, hwf4, _, _, _, _⟩ :=
        WF_moveToList hwf inst c1.starting (Or.inl rfl) hifresh hir1 hir2 hir3
      refine ⟨h4, c1, s1', s2', s3', ?_, hwf4, rfl, rfl, rfl⟩
      unfold statusDispatch
      simp only [if_neg hrun, if_pos hstart, hmove]
    · by_cases hstop : node.status = "Stopping"
      · obtain ⟨h4, s1', s2', s3', hmove, hwf4, _, _, _, _⟩ :=
          WF_moveToList hwf inst c1.stopping (Or.inr (Or.inr rfl)) hifresh
            hir1 hir2 hir3
        refine ⟨h4, c1, s1', s2', s3', ?_, hwf4, rfl, rfl, rfl⟩
        unfold statusDispatch
        simp only [if_neg hrun, if_neg hstart, if_pos hstop, hmove]
      · by_cases hstopd : node.status = "Stopped"
        · cases hl : (h3.mem inst).list with
          | some lid =>
            obtain ⟨hA, t1, t2, t3, hrm, hwfA, _, _, _, _, _, _, _, _, _⟩ :=
              WF_remove hwf inst lid hl hifresh
            refine ⟨hA, c1, t1, t2, t3, ?_, hwfA, rfl, rfl, rfl⟩
            unfold statusDispatch
            simp only [if_neg hrun, if_neg hstart, if_neg hstop, if_pos hstopd,
              hl, hrm]
          | none =>
            refine ⟨h3, c1, s1, s2, s3, ?_, hwf, rfl, rfl, rfl⟩
            unfold statusDispatch
            simp only [if_neg hrun, if_neg hstart, if_neg hstop, if_pos hstopd, hl]
        · refine ⟨h3, c1, s1, s2, s3, ?_, hwf, rfl, rfl, rfl⟩
          unfold statusDispatch
          simp only [if_neg hrun, if_neg hstart, if_neg hstop, if_neg hstopd]

/-- One status-reconciliation iteration succeeds under well-formedness and
preserves it. -/
theorem WF_statusReconOne {h : Heap} {c : Cluster} {r1 r2 r3 : Addr}
    {s1 s2 s3 : List Addr} (hwf : WFw h c r1 r2 r3 s1 s2 s3) (node : AttrsT) :
    ∃ h1 c1 s1' s2' s3', statusReconOne h c node = some (h1, c1) ∧
      WFw h1 c1 r1 r2 r3 s1' s2' s3' ∧
      c1.starting = c.starting ∧ c1.avavilable = c.avavilable ∧
      c1.stopping = c.stopping := by
  have hr1b : r1 < h.fresh := hwf.rep1.bounded r1 (by simp)
  have hr2b : r2 < h.fresh := hwf.rep2.bounded r2 (by simp)
  have hr3b : r3 < h.fresh := hwf.rep3.bounded r3 (by simp)
  cases hv : c.instances node.instanceId with
  | some a =>
    have hinst := hwf.idx _ a hv
    have hdstep : ∀ (hx : Heap), hx = (match findDisk c.disks node.instanceId with
        | some d => writeDisk h a d
        | none => h) →
        WFw hx c r1 r2 r3 s1 s2 s3 ∧ hx.fresh = h.fresh := by
      intro hx hxe
      cases hd : findDisk c.disks node.instanceId with
      | some d =>
        rw [hd] at hxe
        subst hxe
        exact ⟨hwf.transferAll _ (fun b => by simp) (fun b => by simp) (fun b => by simp)
          rfl rfl, rfl⟩
      | none =>
        rw [hd] at hxe
        subst hxe
        exact ⟨hwf, rfl⟩
    obtain ⟨hwf2, hfresh2⟩ := hdstep _ rfl
    by_cases hg : ((match findDisk c.disks node.instanceId with
        | some d => writeDisk h a d
        | none => h).mem a).disk.diskId = ""
    · refine ⟨_, c, s1, s2, s3, ?_, hwf2, rfl, rfl, rfl⟩
      unfold statusReconOne
      simp only [hv, if_pos hg]
    · have hwf3 : WFw (writeAttrs (match findDisk c.disks node.instanceId with
          | some d => writeDisk h a d
          | none => h) a node)
          { c with instances := upd c.instances node.instanceId (some a) }
          r1 r2 r3 s1 s2 s3 := by
        have hwfw := hwf2.transferAll (writeAttrs _ a node) (fun b => by simp)
          (fun b => by simp) (fun b => by simp) rfl rfl
        refine ⟨hwfw.ne12, hwfw.ne13, hwfw.ne23, hwfw.rep1, hwfw.rep2, hwfw.rep3,
          hwfw.disj12, hwfw.disj13, hwfw.disj23, hwfw.back, ?_⟩
        intro id2 a2 ha2
        by_cases hid : id2 = node.instanceId
        · subst hid
          have ha3 : (some a : Option Addr) = some a2 :=
            (upd_self c.instances node.instanceId (some a)).symm.trans ha2
          cases ha3
          simp only [writeAttrs_fresh, hfresh2]
          exact hinst
        · have ha3 : c.instances id2 = some a2 :=
            (upd_ne c.instances node.instanceId (some a) hid).symm.trans ha2
          have := hwf.idx id2 a2 ha3
          simp only [writeAttrs_fresh, hfresh2]
          exact this
      obtain ⟨h4, c2, s1', s2', s3', hdisp, hwf4, hb1, hb2, hb3⟩ :=
        WF_statusDispatch hwf3 node a
          (by simp only [writeAttrs_fresh, hfresh2]; exact hinst.1)
          hinst.2.1 hinst.2.2.1 hinst.2.2.2
      refine ⟨h4, c2, s1', s2', s3', ?_, hwf4, hb1, hb2, hb3⟩
      unfold statusReconOne
      simp only [hv, if_neg hg, hdisp]
  | none =>
    have hwA := WFw_allocate hwf
    have hinstb : h.fresh < ((allocate h).2).fresh := by simp
    have hdstep : ∀ (hx : Heap), hx = (match findDisk c.disks node.instanceId with
        | some d => writeDisk (allocate h).2 h.fresh d
        | none => (allocate h).2) →
        WFw hx c r1 r2 r3 s1 s2 s3 ∧ hx.fresh = h.fresh + 1 := by
      intro hx hxe
      cases hd : findDisk c.disks node.instanceId with
      | some d =>
        rw [hd] at hxe
        subst hxe
        exact ⟨hwA.transferAll _ (fun b => by simp) (fun b => by simp) (fun b => by simp)
          rfl (by simp), by simp⟩
      | none =>
        rw [hd] at hxe
        subst hxe
        exact ⟨hwA, by simp⟩
    obtain ⟨hwf2, hfresh2⟩ := hdstep _ rfl
    by_cases hg : ((match findDisk c.disks node.instanceId with
        | some d => writeDisk (allocate h).2 h.fresh d
        | none => (allocate h).2).mem h.fresh).disk.diskId = ""
    · refine ⟨_, c, s1, s2, s3, ?_, hwf2, rfl, rfl, rfl⟩
      unfold statusReconOne
      simp only [hv, allocate_fst, if_pos hg]
    · have hwf3 : WFw (writeAttrs (match findDisk c.disks node.instanceId with
          | some d => writeDisk (allocate h).2 h.fresh d
          | none => (allocate h).2) h.fresh node)
          { c with instances := upd c.instances node.instanceId (some h.fresh) }
          r1 r2 r3 s1 s2 s3 := by
        have hwfw := hwf2.transferAll (writeAttrs _ h.fresh node) (fun b => by simp)
          (fun b => by simp) (fun b => by simp) rfl rfl
        refine ⟨hwfw.ne12, hwfw.ne13, hwfw.ne23, hwfw.rep1, hwfw.rep2, hwfw.rep3,
          hwfw.disj12, hwfw.disj13, hwfw.disj23, hwfw.back, ?_⟩
        intro id2 a2 ha2
        by_cases hid : id2 = node.instanceId
        · subst hid
          have ha3 : (some h.fresh : Option Addr) = some a2 :=
            (upd_self c.instances node.instanceId (some h.fresh)).symm.trans ha2
          cases ha3
          simp only [writeAttrs_fresh, hfresh2]
          exact ⟨Nat.lt_succ_self _, Nat.ne_of_gt hr1b, Nat.ne_of_gt hr2b,
            Nat.ne_of_gt hr3b⟩
        · have ha3 : c.instances id2 = some a2 :=
            (upd_ne c.instances node.instanceId (some h.fresh) hid).symm.trans ha2
          have := hwf.idx id2 a2 ha3
          simp only [writeAttrs_fresh, hfresh2]
          exact ⟨Nat.lt_succ_of_lt this.1, this.2⟩
      obtain ⟨h4, c2, s1', s2', s3', hdisp, hwf4, hb1, hb2, hb3⟩ :=
        WF_statusDispatch hwf3 node h.fresh
          (by simp only [writeAttrs_fresh, hfresh2]; exact Nat.lt_succ_self _)
          (Nat.ne_of_gt hr1b) (Nat.ne_of_gt hr2b) (Nat.ne_of_gt hr3b)
      refine ⟨h4, c2, s1', s2', s3', ?_, hwf4, hb1, hb2, hb3⟩
      unfold statusReconOne
      simp only [hv, allocate_fst, if_neg hg, hdisp]

/-- The status-reconciliation loop under well-formedness. -/
theorem WF_statusRecon : ∀ (nodes : List AttrsT) {h : Heap} {c : Cluster}
    {r1 r2 r3 : Addr} {s1 s2 s3 : List Addr},
    WFw h c r1 r2 r3 s1 s2 s3 →
    ∃ h1 c1 s1' s2' s3', statusRecon h c nodes = some (h1, c1) ∧
      WFw h1 c1 r1 r2 r3 s1' s2' s3' ∧
      c1.starting = c.starting ∧ c1.avavilable = c.avavilable ∧
      c1.stopping = c.stopping := by
  intro nodes
  induction nodes with
  | nil =>
    intro h c r1 r2 r3 s1 s2 s3 hwf
    exact ⟨h, c, s1, s2, s3, rfl, hwf, rfl, rfl, rfl⟩
  | cons node rest ih =>
    intro h c r1 r2 r3 s1 s2 s3 hwf
    obtain ⟨h1, c1, s1', s2', s3', heq1, hwf1, hb1, hb2, hb3⟩ :=
      WF_statusReconOne hwf node
    obtain ⟨h2, c2, s1'', s2'', s3'', heq2, hwf2, hc1, hc2, hc3⟩ := ih hwf1
    refine ⟨h2, c2, s1'', s2'', s3'', ?_, hwf2, hc1.trans hb1, hc2.trans hb2,
      hc3.trans hb3⟩
    unfold statusRecon
    rw [heq1]
    exact heq2

/-- A full `RefreshInstances` pass under well-formedness: it succeeds,
preserves well-formedness, and leaves the bucket identities alone. -/
theorem WF_RefreshInstances {h : Heap} {c : Cluster} (hwf : WF h c)
    (nodes : List AttrsT) (rids : List String) :
    ∃ h2 c2, Cluster.RefreshInstances h c nodes rids = some (h2, c2) ∧
      WF h2 c2 ∧ c2.starting = c.starting ∧ c2.avavilable = c.avavilable ∧
      c2.stopping = c.stopping := by
  obtain ⟨r1, r2, r3, s1, s2, s3, hw⟩ := hwf
  obtain ⟨h1, c1, s1', s2', s3', heq1, hwf1, hb1, hb2, hb3, _, _⟩ :=
    WF_reserveRecon rids hw
  obtain ⟨h2, c2, t1, t2, t3, heq2, hwf2, hc1, hc2, hc3⟩ := WF_statusRecon nodes hwf1
  refine ⟨h2, c2, ?_, ⟨r1, r2, r3, t1, t2, t3, hwf2⟩, hc1.trans hb1, hc2.trans hb2,
    hc3.trans hb3⟩
  unfold Cluster.RefreshInstances
  rw [heq1]
  exact heq2

/-- The status dispatch changes the cluster at most by recording the
dispatched node in `used`. -/
theorem statusDispatch_cluster {h3 : Heap} {c1 : Cluster} {node : AttrsT}
    {inst : Addr} {h4 : Heap} {c2 : Cluster}
    (heq : statusDispatch h3 c1 node inst = some (h4, c2)) :
    c2 = c1 ∨ c2 = { c1 with used := upd c1.used node.instanceId (some inst) } := by
  unfold statusDispatch at heq
  by_cases hrun : node.status = "Running"
  · rw [if_pos hrun] at heq
    cases hu : c1.used node.instanceId with
    | none =>
      simp only [hu] at heq
      cases hmv : moveToList h3 c1.avavilable inst with
      | none =>
        simp only [hmv] at heq
        exact Option.noConfusion heq
      | some hh =>
        simp only [hmv] at heq
        exact Or.inl (congrArg Prod.snd (Option.some.inj heq)).symm
    | some u =>
      simp only [hu] at heq
      exact Or.inr (congrArg Prod.snd (Option.some.inj heq)).symm
  · rw [if_neg hrun] at heq
    by_cases hstart : node.status = "Starting"
    · rw [if_pos hstart] at heq
      cases hmv : moveToList h3 c1.starting inst with
      | none =>
        simp only [hmv] at heq
        exact Option.noConfusion heq
      | some hh =>
        simp only [hmv] at heq
        exact Or.inl (congrArg Prod.snd (Option.some.inj heq)).symm
    · rw [if_neg hstart] at heq
      by_cases hstop : node.status = "Stopping"
      · rw [if_pos hstop] at heq
        cases hmv : moveToList h3 c1.stopping inst with
        | none =>
          simp only [hmv] at heq
          exact Option.noConfusion heq
        | some hh =>
          simp only [hmv] at heq
          exact Or.inl (congrArg Prod.snd (Option.some.inj heq)).symm
      · rw [if_neg hstop] at heq
        by_cases hstopd : node.status = "Stopped"
        · rw [if_pos hstopd] at heq
          cases hl : (h3.mem inst).list with
          | some lid =>
            simp only [hl] at heq
            cases hrm : InstanceList.Remove h3 lid inst with
            | none =>
              simp only [hrm] at heq
              exact Option.noConfusion heq
            | some p =>
              obtain ⟨hh, x⟩ := p
              simp only [hrm] at heq
              exact Or.inl (congrArg Prod.snd (Option.some.inj heq)).symm
          | none =>
            simp only [hl] at heq
            exact Or.inl (congrArg Prod.snd (Option.some.inj heq)).symm
        · rw [if_neg hstopd] at heq
          exact Or.inl (congrArg Prod.snd (Option.some.inj heq)).symm

/-- Status iteration for an indexed identifier with no resolvable disk and an
empty cached disk id: a complete no-op. -/
theorem statusReconOne_skip (h : Heap) (c : Cluster) (node : AttrsT) (a : Addr)
    (hv : c.instances node.instanceId = some a)
    (hd : findDisk c.disks node.instanceId = none)
    (hg : (h.mem a).disk.diskId = "") :
    statusReconOne h c node = some (h, c) := by
  unfold statusReconOne
  simp only [hv, hd, if_pos hg]

/-- Status iteration for an unknown identifier with no resolvable disk: a
record is allocated but then discarded — the cluster, its index included, is
returned unchanged. -/
theorem statusReconOne_fresh_nodisk (h : Heap) (c : Cluster) (node : AttrsT)
    (hv : c.instances node.instanceId = none)
    (hd : findDisk c.disks node.instanceId = none) :
    statusReconOne h c node = some ((allocate h).2, c) := by
  have hg : (((allocate h).2).mem h.fresh).disk.diskId = "" := by
    rw [allocate_mem, if_pos rfl]
    rfl
  unfold statusReconOne
  simp only [hv, hd, allocate_fst, if_pos hg]

/-- One status iteration changes the cluster at most by (re-)indexing its
node and recording it in `used`; the disk cache is never touched. -/
theorem statusReconOne_shape {h : Heap} {c : Cluster} {node : AttrsT}
    {h1 : Heap} {c1 : Cluster}
    (heq : statusReconOne h c node = some (h1, c1)) :
    c1 = c ∨ ∃ a, c1.instances = upd c.instances node.instanceId (some a) ∧
      (c1.used = c.used ∨ c1.used = upd c.used node.instanceId (some a)) ∧
      c1.disks = c.disks := by
  cases hv : c.instances node.instanceId with
  | some a =>
    cases hd : findDisk c.disks node.instanceId with
    | none =>
      by_cases hg : (h.mem a).disk.diskId = ""
      · rw [statusReconOne_skip h c node a hv hd hg] at heq
        exact Or.inl (congrArg Prod.snd (Option.some.inj heq)).symm
      · have hkey : statusReconOne h c node =
            statusDispatch (writeAttrs h a node)
              { c with instances := upd c.instances node.instanceId (some a) }
              node a := by
          unfold statusReconOne
          simp only [hv, hd, if_neg hg]
        rw [hkey] at heq
        rcases statusDispatch_cluster heq with hc | hc
        · exact Or.inr ⟨a, by rw [hc], Or.inl (by rw [hc]), by rw [hc]⟩
        · exact Or.inr ⟨a, by rw [hc], Or.inr (by rw [hc]), by rw [hc]⟩
    | some d =>
      by_cases hg : ((writeDisk h a d).mem a).disk.diskId = ""
      · have hkey : statusReconOne h c node = some (writeDisk h a d, c) := by
          unfold statusReconOne
          simp only [hv, hd, if_pos hg]
        rw [hkey] at heq
        exact Or.inl (congrArg Prod.snd (Option.some.inj heq)).symm
      · have hkey : statusReconOne h c node =
            statusDispatch (writeAttrs (writeDisk h a d) a node)
              { c with instances := upd c.instances node.instanceId (some a) }
              node a := by
          unfold statusReconOne
          simp only [hv, hd, if_neg hg]
        rw [hkey] at heq
        rcases statusDispatch_cluster heq with hc | hc
        · exact Or.inr ⟨a, by rw [hc], Or.inl (by rw [hc]), by rw [hc]⟩
        · exact Or.inr ⟨a, by rw [hc], Or.inr (by rw [hc]), by rw [hc]⟩
  | none =>
    cases hd : findDisk c.disks node.instanceId with
    | none =>
      rw [statusReconOne_fresh_nodisk h c node hv hd] at heq
      exact Or.inl (congrArg Prod.snd (Option.some.inj heq)).symm
    | some d =>
      by_cases hg : ((writeDisk (allocate h).2 h.fresh d).mem h.fresh).disk.diskId = ""
      · have hkey : statusReconOne h c node =
            some (writeDisk (allocate h).2 h.fresh d, c) := by
          unfold statusReconOne
          simp only [hv, hd, allocate_fst, if_pos hg]
        rw [hkey] at heq
        exact Or.inl (congrArg Prod.snd (Option.some.inj heq)).symm
      · have hkey : statusReconOne h c node =
            statusDispatch
              (writeAttrs (writeDisk (allocate h).2 h.fresh d) h.fresh node)
              { c with instances := upd c.instances node.instanceId (some h.fresh) }
              node h.fresh := by
          unfold statusReconOne
          simp only [hv, hd, allocate_fst, if_neg hg]
        rw [hkey] at heq
        rcases statusDispatch_cluster heq with hc | hc
        · exact Or.inr ⟨h.fresh, by rw [hc], Or.inl (by rw [hc]), by rw [hc]⟩
        · exact Or.inr ⟨h.fresh, by rw [hc], Or.inr (by rw [hc]), by rw [hc]⟩

/-- The status loop never deletes an index or `used` entry. -/
theorem statusRecon_mono : ∀ (nodes : List AttrsT) {h : Heap} {c : Cluster}
    {h1 : Heap} {c1 : Cluster}, statusRecon h c nodes = some (h1, c1) →
    ∀ id, ((c.instances id).isSome → (c1.instances id).isSome) ∧
      ((c.used id).isSome → (c1.used id).isSome) := by
  intro nodes
  induction nodes with
  | nil =>
    intro h c h1 c1 heq id
    have heq2 : some (h, c) = some (h1, c1) := heq
    have hc : c = c1 := congrArg Prod.snd (Option.some.inj heq2)
    rw [← hc]
    exact ⟨fun hs => hs, fun hs => hs⟩
  | cons node rest ih =>
    intro h c h1 c1 heq id
    unfold statusRecon at heq
    cases hone : statusReconOne h c node with
    | none =>
      rw [hone] at heq
      exact Option.noConfusion heq
    | some p =>
      obtain ⟨hA, cA⟩ := p
      simp only [hone] at heq
      have hrest := ih heq id
      have hstep : ((c.instances id).isSome → (cA.instances id).isSome) ∧
          ((c.used id).isSome → (cA.used id).isSome) := by
        rcases statusReconOne_shape hone with hc | ⟨a, hi, hu, _⟩
        · rw [hc]
          exact ⟨fun hs => hs, fun hs => hs⟩
        · constructor
          · intro hs
            rw [hi]
            by_cases hid : id = node.instanceId
            · subst hid
              rw [upd_self]
              rfl
            · rw [upd_ne _ _ _ hid]
              exact hs
          · intro hs
            rcases hu with hu | hu
            · rw [hu]
              exact hs
            · rw [hu]
              by_cases hid : id = node.instanceId
              · subst hid
                rw [upd_self]
                rfl
              · rw [upd_ne _ _ _ hid]
                exact hs
      exact ⟨fun hs => hrest.1 (hstep.1 hs), fun hs => hrest.2 (hstep.2 hs)⟩

/-- The status loop never creates an index entry for an identifier that is
unknown and disk-unresolved, and never changes the disk cache. -/
theorem statusRecon_unindexed : ∀ (nodes : List AttrsT) {h : Heap} {c : Cluster}
    {h1 : Heap} {c1 : Cluster}, statusRecon h c nodes = some (h1, c1) →
    ∀ id, c.instances id = none → findDisk c.disks id = none →
    c1.instances id = none ∧ c1.disks = c.disks := by
  intro nodes
  induction nodes with
  | nil =>
    intro h c h1 c1 heq id hinst hdisk
    have heq2 : some (h, c) = some (h1, c1) := heq
    have hc : c = c1 := congrArg Prod.snd (Option.some.inj heq2)
    rw [← hc]
    exact ⟨hinst, rfl⟩
  | cons node rest ih =>
    intro h c h1 c1 heq id hinst hdisk
    unfold statusRecon at heq
    cases hone : statusReconOne h c node with
    | none =>
      rw [hone] at heq
      exact Option.noConfusion heq
    | some p =>
      obtain ⟨hA, cA⟩ := p
      simp only [hone] at heq
      have hstep : cA.instances id = none ∧ cA.disks = c.disks := by
        by_cases hid : node.instanceId = id
        · have hone2 := statusReconOne_fresh_nodisk h c node
            (by rw [hid]; exact hinst) (by rw [hid]; exact hdisk)
          have h3 : ((allocate h).2, c) = (hA, cA) :=
            Option.some.inj (hone2.symm.trans hone)
          have hc : c = cA := congrArg Prod.snd h3
          rw [← hc]
          exact ⟨hinst, rfl⟩
        · rcases statusReconOne_shape hone with hc | ⟨a, hi, _, hd⟩
          · rw [hc]
            exact ⟨hinst, rfl⟩
          · refine ⟨?_, hd⟩
            rw [hi, upd_ne _ _ _ (fun hh => hid hh.symm)]
            exact hinst
      obtain ⟨hstep1, hstep2⟩ := hstep
      have hrest := ih heq id hstep1 (by rw [hstep2]; exact hdisk)
      exact ⟨hrest.1, hrest.2.trans hstep2⟩

/-- One reservation iteration writes the index only at its own identifier and
never touches the disk cache. -/
theorem reserveReconOne_other {h : Heap} {c : Cluster} {rid : String}
    {h1 : Heap} {c1 : Cluster} (heq : reserveReconOne h c rid = some (h1, c1)) :
    c1.disks = c.disks ∧ ∀ id, id ≠ rid → c1.instances id = c.instances id := by
  cases hv : c.instances rid with
  | none =>
    have hkey : reserveReconOne h c rid = some ((allocate h).2,
        { c with instances := upd c.instances rid (some h.fresh),
                 used := upd c.used rid (some h.fresh) }) := by
      unfold reserveReconOne
      rw [hv]
      rfl
    rw [hkey] at heq
    have hc : _ = c1 := congrArg Prod.snd (Option.some.inj heq)
    rw [← hc]
    exact ⟨rfl, fun id hid => upd_ne _ _ _ hid⟩
  | some inst =>
    cases hl : (h.mem inst).list with
    | none =>
      have hkey : reserveReconOne h c rid =
          some (h, { c with used := upd c.used rid (some inst) }) := by
        unfold reserveReconOne
        simp only [hv, hl]
      rw [hkey] at heq
      have hc : _ = c1 := congrArg Prod.snd (Option.some.inj heq)
      rw [← hc]
      exact ⟨rfl, fun id hid => rfl⟩
    | some lid =>
      cases hrm : InstanceList.Remove h lid inst with
      | none =>
        have hkey : reserveReconOne h c rid = none := by
          unfold reserveReconOne
          simp only [hv, hl, hrm]
        rw [hkey] at heq
        exact Option.noConfusion heq
      | some p =>
        obtain ⟨hA, x⟩ := p
        have hkey : reserveReconOne h c rid =
            some (hA, { c with used := upd c.used rid (some inst) }) := by
          unfold reserveReconOne
          simp only [hv, hl, hrm]
        rw [hkey] at heq
        have hc : _ = c1 := congrArg Prod.snd (Option.some.inj heq)
        rw [← hc]
        exact ⟨rfl, fun id hid => rfl⟩

/-- The reservation loop writes the index only at listed identifiers and
never touches the disk cache. -/
theorem reserveRecon_other : ∀ (rids : List String) {h : Heap} {c : Cluster}
    {h1 : Heap} {c1 : Cluster}, reserveRecon h c rids = some (h1, c1) →
    c1.disks = c.disks ∧ ∀ id, id ∉ rids → c1.instances id = c.instances id := by
  intro rids
  induction rids with
  | nil =>
    intro h c h1 c1 heq
    have heq2 : some (h, c) = some (h1, c1) := heq
    have hc : c = c1 := congrArg Prod.snd (Option.some.inj heq2)
    rw [← hc]
    exact ⟨rfl, fun id hid => rfl⟩
  | cons rid rest ih =>
    intro h c h1 c1 heq
    unfold reserveRecon at heq
    cases hone : reserveReconOne h c rid with
    | none =>
      rw [hone] at heq
      exact Option.noConfusion heq
    | some p =>
      obtain ⟨hA, cA⟩ := p
      simp only [hone] at heq
      obtain ⟨hd1, hi1⟩ := reserveReconOne_other hone
      obtain ⟨hd2, hi2⟩ := ih heq
      refine ⟨hd2.trans hd1, ?_⟩
      intro id hid
      have hid1 : id ≠ rid := fun hh => hid (hh ▸ List.mem_cons_self rid rest)
      have hid2 : id ∉ rest := fun hh => hid (List.mem_cons_of_mem rid hh)
      exact (hi2 id hid2).trans (hi1 id hid1)

/-! ## Concrete states used by witnesses and counterexamples -/

/-- The all-zero heap: every address holds a zero node, every list header is
the Go zero value, nothing is allocated. -/
def zeroHeap : Heap :=
  { mem := fun _ => Instance.zero, lists := fun _ => InstanceList.zero, fresh := 0 }

/-- A bucket (list id 0, sentinel node 0) holding exactly node 1, plus a free
unbucketed node 2. -/
def pushHeap : Heap :=
  { mem := fun a =>
      if a = 0 then { Instance.zero with next := some 1, prev := some 1 }
      else if a = 1 then
        { attrs := ⟨"i-1", "Running", "img-1"⟩, disk := ⟨"d-1", "i-1"⟩,
          next := some 0, prev := some 0, list := some 0 }
      else if a = 2 then
        { attrs := ⟨"i-2", "Running", "img-2"⟩, disk := ⟨"d-2", "i-2"⟩,
          next := none, prev := none, list := none }
      else Instance.zero,
    lists := fun l => if l = 0 then ⟨some 0, 1⟩ else InstanceList.zero,
    fresh := 3 }

theorem pushHeap_rep : Rep pushHeap 0 0 [1] := by
  refine ⟨rfl, ?_, by decide, by decide, rfl, ?_⟩
  · exact ⟨rfl, by decide, rfl, rfl, rfl⟩
  · intro a ha
    simp only [List.mem_singleton] at ha
    subst ha
    rfl

/-- A heap whose every node reports status `Stopped` (for `Start` witnesses). -/
def stoppedHeap : Heap :=
  { mem := fun _ => { Instance.zero with attrs := ⟨"i-1", "Stopped", "img-1"⟩ },
    lists := fun _ => InstanceList.zero, fresh := 0 }

/-- Three freshly initialised empty buckets: for `a < 3`, node `a` is the
self-linked sentinel of bucket `a`; nothing else is allocated. -/
def refreshHeap : Heap :=
  { mem := fun a =>
      if a < 3 then { Instance.zero with next := some a, prev := some a }
      else Instance.zero,
    lists := fun l => if l < 3 then ⟨some l, 0⟩ else InstanceList.zero,
    fresh := 3 }

/-- A cluster over `refreshHeap`: empty buckets 0/1/2, one cached disk
attached to `"i-1"`, empty index and `used` maps. -/
def refreshCluster : Cluster :=
  { starting := 0, avavilable := 1, stopping := 2,
    used := fun _ => none,
    disks := [⟨"d-1", "i-1"⟩],
    instances := fun _ => none }

theorem refreshHeap_rep0 : Rep refreshHeap 0 0 [] :=
  ⟨by decide, ⟨by decide, by decide⟩, by decide, by decide, by decide,
   fun a ha => absurd ha (List.not_mem_nil a)⟩

theorem refreshHeap_rep1 : Rep refreshHeap 1 1 [] :=
  ⟨by decide, ⟨by decide, by decide⟩, by decide, by decide, by decide,
   fun a ha => absurd ha (List.not_mem_nil a)⟩

theorem refreshHeap_rep2 : Rep refreshHeap 2 2 [] :=
  ⟨by decide, ⟨by decide, by decide⟩, by decide, by decide, by decide,
   fun a ha => absurd ha (List.not_mem_nil a)⟩

theorem refreshWF : WF refreshHeap refreshCluster := by
  refine ⟨0, 1, 2, [], [], [],
    ⟨by decide, by decide, by decide, refreshHeap_rep0, refreshHeap_rep1,
     refreshHeap_rep2, ?_, ?_, ?_, ?_, ?_⟩⟩
  · intro a h1 h2
    simp only [List.mem_singleton] at h1 h2
    rw [h1] at h2
    exact absurd h2 (by decide)
  · intro a h1 h2
    simp only [List.mem_singleton] at h1 h2
    rw [h1] at h2
    exact absurd h2 (by decide)
  · intro a h1 h2
    simp only [List.mem_singleton] at h1 h2
    rw [h1] at h2
    exact absurd h2 (by decide)
  · intro a ha
    have ha3 : a < 3 := ha
    have hl : (refreshHeap.mem a).list = none := by
      show (if a < 3 then { Instance.zero with next := some a, prev := some a }
            else Instance.zero).list = none
      rw [if_pos ha3]
      rfl
    rw [hl]
    exact trivial
  · intro id a ha
    exact Option.noConfusion ha

/-- A provider instance-listing entry for `"i-1"` reporting status
`Starting`. -/
def cexNode : AttrsT := ⟨"i-1", "Starting", "img-1"⟩

/-! ## C4: Find is find-and-pop -/

/-- C4: on a represented bucket, if some node matches the image id then
`Find` removes exactly the first matching node in head-to-tail order (its
`next`, `prev` and bucket back-reference cleared), the remaining nodes keep
their order, the population count drops by exactly one, and the node is
returned; if no node matches, `Find` returns the nil pointer and the heap —
bucket contents and population count included — is completely unchanged. -/
theorem C4_find_is_find_and_pop (h : Heap) (l : ListId) (root : Addr)
    (as : List Addr) (img : String) (hrep : Rep h l root as) :
    ((∃ a ∈ as, (h.mem a).attrs.imageId = img) →
      ∃ as1 x as2 h2, as = as1 ++ x :: as2 ∧
        (h.mem x).attrs.imageId = img ∧
        (∀ b ∈ as1, (h.mem b).attrs.imageId ≠ img) ∧
        InstanceList.Find h l img = some (h2, some x) ∧
        Rep h2 l root (as1 ++ as2) ∧
        (h2.mem x).next = none ∧ (h2.mem x).prev = none ∧ (h2.mem x).list = none ∧
        InstanceList.Len h2 l = InstanceList.Len h l - 1) ∧
    ((∀ a ∈ as, (h.mem a).attrs.imageId ≠ img) →
      InstanceList.Find h l img = some (h, none)) := by
  constructor
  · intro hex
    obtain ⟨as1, x, as2, h2, heq, himg, hno, hfind, _, hreps, hxn, hxp, hxl, _, _, _, _,
      hhead, _⟩ := Find_spec_found hrep hex

    refine ⟨as1, x, as2, h2, heq, himg, hno, hfind, hreps, hxn, hxp, hxl, ?_⟩
    unfold InstanceList.Len
    rw [hhead]
  · intro hno
    exact Find_spec_none hrep hno

/-- Witness for C4 on `pushHeap`: a successful pop for `"img-1"` and an
unchanged state for the unmatched `"img-x"`. -/
theorem C4_find_is_find_and_pop_witness :
    (InstanceList.Find pushHeap 0 "img-1").isSome = true ∧
    InstanceList.Find pushHeap 0 "img-x" = some (pushHeap, none) := by
  have h1 := C4_find_is_find_and_pop pushHeap 0 0 [1] "img-1" pushHeap_rep
  have h2 := C4_find_is_find_and_pop pushHeap 0 0 [1] "img-x" pushHeap_rep
  constructor
  · obtain ⟨as1, x, as2, hh, heq, himg, hno, hfind, _⟩ :=
      h1.1 ⟨1, by decide, by decide⟩
    rw [hfind]
    rfl
  · exact h2.2 (by decide)

/-! ## C5: Push duplicate guard and tail insertion -/

/-- C5: on a represented bucket, pushing a node whose instance id already
occurs in the bucket leaves the entire state untouched (same nodes, same
order, same population count) and returns the nil pointer; pushing a node
with a fresh instance id inserts it at the tail of the ring, sets its bucket
back-reference, increments the population count by one, and returns the
inserted node. -/
theorem C5_push_duplicate_guard (h : Heap) (l : ListId) (root : Addr)
    (as : List Addr) (e : Addr) (hrep : Rep h l root as) :
    ((∃ b ∈ as, (h.mem b).attrs.instanceId = (h.mem e).attrs.instanceId) →
      InstanceList.Push h l e = some (h, none)) ∧
    ((∀ b ∈ as, (h.mem b).attrs.instanceId ≠ (h.mem e).attrs.instanceId) →
      e ≠ root → e < h.fresh →
      ∃ h2, InstanceList.Push h l e = some (h2, some e) ∧
        Rep h2 l root (as ++ [e]) ∧
        (h2.mem e).list = some l ∧
        InstanceList.Len h2 l = InstanceList.Len h l + 1) := by
  constructor
  · intro hdup
    exact Push_spec_dup hrep e hdup
  · intro hdup heroot hefresh
    obtain ⟨h2, hpush, hreps, hlist, _, _, _, _, _, _, _, _, hhead, _⟩ :=
      Push_spec_new hrep e hdup heroot hefresh
    refine ⟨h2, hpush, hreps, hlist, ?_⟩
    unfold InstanceList.Len
    rw [hhead]

/-- Witness for C5 on `pushHeap`: pushing node 1 again is a no-op returning
nil; pushing the free node 2 inserts it. -/
theorem C5_push_duplicate_guard_witness :
    InstanceList.Push pushHeap 0 1 = some (pushHeap, none) ∧
    (InstanceList.Push pushHeap 0 2).map (fun p => p.2) = some (some 2) := by
  have h1 := C5_push_duplicate_guard pushHeap 0 0 [1] 1 pushHeap_rep
  have h2 := C5_push_duplicate_guard pushHeap 0 0 [1] 2 pushHeap_rep
  constructor
  · exact h1.1 ⟨1, by decide, by decide⟩
  · obtain ⟨hh2, hpush, _⟩ := h2.2 (by decide) (by decide) (by decide)
    rw [hpush]
    rfl

/-! ## C2: GetInstance reservation-failure undo -/

/-- A cluster whose available bucket is list 0 of `pushHeap`; buckets 10 and
11 are initialised empty elsewhere and unused by these scenarios. -/
def poolCluster : Cluster :=
  { starting := 10, avavilable := 0, stopping := 11,
    used := fun _ => none, disks := [],
    instances := fun id => if id = "i-1" then some 1 else if id = "i-2" then some 2 else none }

/-- C2: when the available bucket holds a node matching the requested image
id (bucket represented, instance ids in the bucket distinct), a failing
reservation tag makes `GetInstance` push the popped instance back (the
population count is restored and the instance is again linked in the
bucket), return the used map — indeed the whole cluster record — unchanged,
and hand the caller the nil pointer; a successful tag records the instance
under its instance id in `used` and returns it. -/
theorem C2_getinstance_tag_failure_undo (h : Heap) (c : Cluster) (root : Addr)
    (as : List Addr) (img : String)
    (hrep : Rep h c.avavilable root as)
    (hids : (as.map fun a => (h.mem a).attrs.instanceId).Nodup)
    (hex : ∃ a ∈ as, (h.mem a).attrs.imageId = img) :
    (∃ h2 x, Cluster.GetInstance h c img false = some (h2, c, none) ∧
       InstanceList.Len h2 c.avavilable = InstanceList.Len h c.avavilable ∧
       inBucket h2 c.avavilable x = true ∧
       (h2.mem x).attrs.imageId = img) ∧
    (∃ h2 x, Cluster.GetInstance h c img true =
        some (h2, { c with used := upd c.used ((h.mem x).attrs.instanceId) (some x) },
          some x) ∧
       (h.mem x).attrs.imageId = img ∧
       (h2.mem x).attrs.imageId = img) := by
  obtain ⟨as1, x, as2, h1, heq, himg, hno, hfind, hrmeq, hreps, hxn, hxp, hxl, hlf, hattrs,
    hdisk, hlists, hhead, hfresh⟩ := Find_spec_found hrep hex
  have hxroot : x ≠ root := Ne.symm (Rep.nodup_pieces (heq ▸ hrep)).2.1
  have hidsne : ∀ b ∈ as1 ++ as2,
      (h1.mem b).attrs.instanceId ≠ (h1.mem x).attrs.instanceId := by
    intro b hb
    rw [hattrs b, hattrs x]
    rw [heq, List.map_append, List.map_cons, List.nodup_append] at hids
    obtain ⟨hnd1, hnd2, hdisj⟩ := hids
    intro hh
    rcases List.mem_append.mp hb with h2 | h2
    · exact hdisj (List.mem_map_of_mem _ h2) (List.mem_cons.mpr (Or.inl hh))
    · exact (List.nodup_cons.mp hnd2).1 (hh ▸ List.mem_map_of_mem _ h2)
  have hxfresh : x < h1.fresh := by
    rw [hfresh]
    exact hrep.bounded x (by simp [heq])
  obtain ⟨h2, hpush, hreps2, hlist2, hxnext2, hxprev2, hlf2, hattrs2, hdisk2, _, _,
    hlists2, hhead2, hfresh2⟩ := Push_spec_new hreps x hidsne hxroot hxfresh
  constructor
  · refine ⟨h2, x, ?_, ?_, ?_, ?_⟩
    · unfold Cluster.GetInstance
      simp [hfind, hpush]
    · unfold InstanceList.Len
      rw [hhead2, hhead]
      simp
    · rw [inBucket_iff hreps2 x]
      simp
    · rw [hattrs2 x, hattrs x]
      exact himg
  · refine ⟨h1, x, ?_, himg, by rw [hattrs x]; exact himg⟩
    unfold Cluster.GetInstance
    simp [hfind, hattrs x]

/-- Witness for C2 on `pushHeap`/`poolCluster`: the tag-failure call returns
nil with the count restored to 1, the tag-success call returns the node. -/
theorem C2_getinstance_tag_failure_undo_witness :
    (Cluster.GetInstance pushHeap poolCluster "img-1" false).map
        (fun p => (p.2.2.isSome, InstanceList.Len p.1 0)) = some (false, 1) ∧
    (Cluster.GetInstance pushHeap poolCluster "img-1" true).map
        (fun p => p.2.2.isSome) = some true := by
  have h := C2_getinstance_tag_failure_undo pushHeap poolCluster 0 [1] "img-1"
    pushHeap_rep (by decide) ⟨1, by decide, by decide⟩
  constructor
  · obtain ⟨h2, x, hget, hlen, _, _⟩ := h.1
    have hl : InstanceList.Len h2 0 = 1 := hlen.trans rfl
    rw [hget]
    show some (((none : Option Addr)).isSome, InstanceList.Len h2 0) = some (false, 1)
    rw [hl]
    rfl
  · obtain ⟨h2, x, hget, _, _⟩ := h.2
    rw [hget]
    rfl

/-! ## C6: StopInstance error conditions and success effect -/

/-- Cluster for the StopInstance scenarios: `"i-1"` is indexed at node 1 and
reserved; `"i-2"` is indexed at node 2 but not reserved. -/
def stopCluster : Cluster :=
  { starting := 10, avavilable := 0, stopping := 11,
    used := fun id => if id = "i-1" then some 1 else none,
    disks := [],
    instances := fun id => if id = "i-1" then some 1 else if id = "i-2" then some 2 else none }

/-- C6: `StopInstance` returns the distinct `notFound` error when the id is
absent from the index, the distinct `notReserved` error when indexed but not
in `used` (heap and cluster — hence status and bucket membership — returned
untouched in both cases), propagates a `Stop()` failure, and on `Stop()`
success deletes the instance's id from `used` (the queried identifier, when
the used entry is consistent) and returns success. -/
theorem C6_stopinstance_errors (h : Heap) (c : Cluster) (id : String) (stopOk : Bool) :
    (c.instances id = none →
      Cluster.StopInstance h c id stopOk = (h, c, some .notFound)) ∧
    (∀ a, c.instances id = some a → c.used id = none →
      Cluster.StopInstance h c id stopOk = (h, c, some .notReserved)) ∧
    (∀ a inst e, c.instances id = some a → c.used id = some inst →
      (Instance.Stop h inst stopOk).2 = some e →
      Cluster.StopInstance h c id stopOk = (h, c, some (.stopFailed e))) ∧
    (∀ a inst, c.instances id = some a → c.used id = some inst →
      (Instance.Stop h inst stopOk).2 = none →
      Cluster.StopInstance h c id stopOk =
        (h, { c with used := upd c.used ((h.mem inst).attrs.instanceId) none }, none)) ∧
    (∀ a inst, c.instances id = some a → c.used id = some inst →
      (Instance.Stop h inst stopOk).2 = none →
      (h.mem inst).attrs.instanceId = id →
      ((Cluster.StopInstance h c id stopOk).2.1).used id = none) := by
  refine ⟨?_, ?_, ?_, ?_, ?_⟩
  · intro hnone
    unfold Cluster.StopInstance
    simp only [hnone]
  · intro a hsome hnone
    unfold Cluster.StopInstance
    simp only [hsome, hnone]
  · intro a inst e hsome husd hstop
    unfold Cluster.StopInstance
    simp only [hsome, husd, hstop]
  · intro a inst hsome husd hstop
    unfold Cluster.StopInstance
    simp only [hsome, husd, hstop]
  · intro a inst hsome husd hstop hid
    unfold Cluster.StopInstance
    simp only [hsome, husd, hstop, hid]
    simp [upd]

/-- Witness for C6 on `pushHeap`/`stopCluster`: all four outcomes at concrete
inputs. -/
theorem C6_stopinstance_errors_witness :
    Cluster.StopInstance pushHeap stopCluster "zzz" true =
      (pushHeap, stopCluster, some .notFound) ∧
    Cluster.StopInstance pushHeap stopCluster "i-2" true =
      (pushHeap, stopCluster, some .notReserved) ∧
    (Cluster.StopInstance pushHeap stopCluster "i-1" false).2.2 =
      some (.stopFailed .stopFail) ∧
    ((Cluster.StopInstance pushHeap stopCluster "i-1" true).2.1).used "i-1" = none ∧
    (Cluster.StopInstance pushHeap stopCluster "i-1" true).2.2 = none := by
  have h1 := C6_stopinstance_errors pushHeap stopCluster "zzz" true
  have h2 := C6_stopinstance_errors pushHeap stopCluster "i-2" true
  have h3 := C6_stopinstance_errors pushHeap stopCluster "i-1" false
  have h4 := C6_stopinstance_errors pushHeap stopCluster "i-1" true
  refine ⟨h1.1 rfl, h2.2.1 2 rfl rfl, ?_, h4.2.2.2.2 1 1 rfl rfl rfl rfl, ?_⟩
  · rw [h3.2.2.1 1 1 .stopFail rfl rfl rfl]
  · rw [h4.2.2.2.1 1 1 rfl rfl rfl]

/-! ## C9: delayer wait period -/

/-- C9: for a delayer with `rangeMin ≤ rangeMax` and a random draw in
`[0, rangeMax - rangeMin)` (the value `Int63n` returns when the range is
proper), the wait period equals `rangeMin + draw` and lies in
`[rangeMin, rangeMax]` when `rangeMin < rangeMax`, and equals exactly
`rangeMin` when `rangeMax = rangeMin`. -/
theorem C9_delayer_wait_period (rangeMin rangeMax draw : Int)
    (hle : rangeMin ≤ rangeMax)
    (hdraw : rangeMin < rangeMax → 0 ≤ draw ∧ draw < rangeMax - rangeMin) :
    (rangeMin < rangeMax →
      delayerWaitPeriod rangeMin rangeMax draw = rangeMin + draw ∧
      rangeMin ≤ delayerWaitPeriod rangeMin rangeMax draw ∧
      delayerWaitPeriod rangeMin rangeMax draw ≤ rangeMax) ∧
    (rangeMax = rangeMin → delayerWaitPeriod rangeMin rangeMax draw = rangeMin) := by
  constructor
  · intro hlt
    obtain ⟨h0, h1⟩ := hdraw hlt
    have heq : delayerWaitPeriod rangeMin rangeMax draw = rangeMin + draw := by
      unfold delayerWaitPeriod
      have hpos : (0 : Int) < rangeMax - rangeMin := by omega
      simp [hpos]
    exact ⟨heq, by omega, by omega⟩
  · intro heq
    unfold delayerWaitPeriod
    simp [heq]

/-- Witness for C9 at `(rangeMin, rangeMax, draw) = (2, 5, 1)` and `(5, 5, 7)`. -/
theorem C9_delayer_wait_period_witness :
    delayerWaitPeriod 2 5 1 = 3 ∧ delayerWaitPeriod 5 5 7 = 5 := by
  have h1 := C9_delayer_wait_period 2 5 1 (by decide) (fun _ => by decide)
  have h2 := C9_delayer_wait_period 5 5 7 (by decide) (fun hlt => absurd hlt (by decide))
  have e1 := (h1.1 (by decide)).1
  have e2 := h2.2 rfl
  constructor
  · omega
  · omega

/-! ## C7: Start precondition and error propagation -/

/-- C7: `Instance.Start` fails with `invalidState` and issues no provider
calls whenever the status is not `Stopped`; when the status is `Stopped` the
result does not depend on the outcome of the tag-clear call, a disk
reinitialisation failure is propagated with the start call never issued, and
otherwise the outcome of the provider start call is returned (with the start
call issued). -/
theorem C7_start_guard_and_propagation (h : Heap) (a : Addr)
    (tagClearOk tagClearOk2 reInitOk startOk : Bool) :
    ((h.mem a).attrs.status ≠ "Stopped" →
        Instance.Start h a tagClearOk reInitOk startOk = ([], some .invalidState)) ∧
    ((h.mem a).attrs.status = "Stopped" →
        Instance.Start h a tagClearOk reInitOk startOk =
          Instance.Start h a tagClearOk2 reInitOk startOk ∧
        (reInitOk = false →
           (Instance.Start h a tagClearOk reInitOk startOk).2 = some .reInitErr ∧
           ProviderCall.startInstance ∉ (Instance.Start h a tagClearOk reInitOk startOk).1) ∧
        (reInitOk = true →
           (Instance.Start h a tagClearOk reInitOk startOk).2 =
             (if startOk then none else some .startErr) ∧
           ProviderCall.startInstance ∈ (Instance.Start h a tagClearOk reInitOk startOk).1)) := by
  unfold Instance.Start
  constructor
  · intro hne
    simp [hne]
  · intro heq
    rw [heq]
    refine ⟨rfl, ?_, ?_⟩
    · intro hre
      subst hre
      simp
    · intro hre
      subst hre
      simp

/-- Witness for C7 on concrete heaps: a `Stopped` node with a failing
reinitialisation, and a non-`Stopped` node. -/
theorem C7_start_guard_and_propagation_witness :
    (Instance.Start stoppedHeap 0 true false true).2 = some .reInitErr ∧
    Instance.Start zeroHeap 0 true true true = ([], some .invalidState) := by
  have h1 := C7_start_guard_and_propagation stoppedHeap 0 true false false true
  have h2 := C7_start_guard_and_propagation zeroHeap 0 true false true true
  exact ⟨((h1.2 rfl).2.1 rfl).1, h2.1 (by decide)⟩

/-! ## C10: zero-value bucket -/

/-- C10: the code, not the claim — on a zero-value `InstanceList` the root
pointer is nil, so `Find` faults reading `l.root.next` and `Push` faults
inside `lazyInit` for the same read (modelled by `none`), instead of lazily
initialising the sentinel ring as the specification promises. -/
theorem C10_zero_value_bucket_faults :
    InstanceList.Find zeroHeap 0 "img-1" = none ∧
    InstanceList.Push zeroHeap 0 0 = none ∧
    InstanceList.lazyInit zeroHeap 0 = none :=
  ⟨rfl, rfl, rfl⟩

/-! ## C1: partition invariant -/

/-- C1 (amended): from a well-formed state every reconciliation pass of
`RefreshInstances` succeeds and, like the caller operations `GetInstance` and
`StopInstance`, preserves well-formedness; afterwards no instance is linked
into two buckets at once.  The other half of the original claim — that
membership in `used` excludes membership in every bucket — is false: the
`Starting`/`Stopping` arms of the status dispatch bucket a listed instance
without consulting `used` (see the counterexample). -/
theorem C1_partition_after_operations (h : Heap) (c : Cluster) (hwf : WF h c) :
    (∀ nodes rids, ∃ h2 c2,
       Cluster.RefreshInstances h c nodes rids = some (h2, c2) ∧
       WF h2 c2 ∧ atMostOneBucket h2 c2) ∧
    (∀ img tagOk, ∃ h2 c2 res,
       Cluster.GetInstance h c img tagOk = some (h2, c2, res) ∧
       WF h2 c2 ∧ atMostOneBucket h2 c2) ∧
    (∀ id stopOk,
       WF (Cluster.StopInstance h c id stopOk).1
         (Cluster.StopInstance h c id stopOk).2.1 ∧
       atMostOneBucket (Cluster.StopInstance h c id stopOk).1
         (Cluster.StopInstance h c id stopOk).2.1) := by
  refine ⟨?_, ?_, ?_⟩
  · intro nodes rids
    obtain ⟨h2, c2, heq, hwf2, _, _, _⟩ := WF_RefreshInstances hwf nodes rids
    exact ⟨h2, c2, heq, hwf2, hwf2.atMostOne⟩
  · intro img tagOk
    obtain ⟨h2, c2, res, heq, hwf2, _, _, _⟩ := WF_GetInstance hwf img tagOk
    exact ⟨h2, c2, res, heq, hwf2, hwf2.atMostOne⟩
  · intro id stopOk
    obtain ⟨hwf2, _, _, _, _⟩ := WF_StopInstance hwf id stopOk
    exact ⟨hwf2, hwf2.atMostOne⟩

/-- Witness for C1 at the concrete well-formed refresh state. -/
theorem C1_partition_after_operations_witness :
    WF refreshHeap refreshCluster ∧
    atMostOneBucket (Cluster.StopInstance refreshHeap refreshCluster "i-9" true).1
      (Cluster.StopInstance refreshHeap refreshCluster "i-9" true).2.1 :=
  ⟨refreshWF,
   ((C1_partition_after_operations refreshHeap refreshCluster refreshWF).2.2
      "i-9" true).2⟩

/-- C1 counterexample: a pass over tag listing `["i-1"]` and instance listing
`[cexNode]` (reported status `Starting`) records `"i-1"` in `used` at node 3
while node 3 is simultaneously linked into the starting bucket — `used`
membership does not exclude bucket membership. -/
theorem C1_used_and_bucketed :
    (Cluster.RefreshInstances refreshHeap refreshCluster [cexNode] ["i-1"]).map
      (fun p => (p.2.used "i-1",
        match p.2.used "i-1" with
        | some a => inBucket p.1 p.2.starting a
        | none => false)) = some (some 3, true) := by
  decide

/-! ## C3: reservation precedence -/

/-- C3 (amended): within a `RefreshInstances` pass, reservation
reconciliation runs before status reconciliation; from a well-formed state,
after the reservation step every tag-listed identifier is indexed, present in
`used` and a member of no bucket; and the status step never un-indexes it nor
removes it from `used`.  The original claim that after the whole pass the
identifier is in no bucket is false: the status dispatch re-buckets a
tag-listed instance whose reported status is `Starting` or `Stopping` (see
the counterexample). -/
theorem C3_reservation_precedence (h : Heap) (c : Cluster) (nodes : List AttrsT)
    (rids : List String) (hwf : WF h c) :
    (Cluster.RefreshInstances h c nodes rids =
      match reserveRecon h c rids with
      | none => none
      | some (h1, c1) => statusRecon h1 c1 nodes) ∧
    ∃ h1 c1, reserveRecon h c rids = some (h1, c1) ∧
      (∀ rid ∈ rids, ∃ a, c1.instances rid = some a ∧ c1.used rid = some a ∧
        ∀ l ∈ clusterBuckets c1, inBucket h1 l a = false) ∧
      ∀ h2 c2, statusRecon h1 c1 nodes = some (h2, c2) →
        ∀ rid ∈ rids, (c2.instances rid).isSome ∧ (c2.used rid).isSome := by
  refine ⟨rfl, ?_⟩
  obtain ⟨r1, r2, r3, s1, s2, s3, hw⟩ := hwf
  obtain ⟨h1, c1, s1', s2', s3', heq1, hwf1, _, _, _, _, hall⟩ :=
    WF_reserveRecon rids hw
  refine ⟨h1, c1, heq1, ?_, ?_⟩
  · intro rid hrid
    obtain ⟨a, hi, hu, hl, _⟩ := hall rid hrid
    exact ⟨a, hi, hu, notInBucket_of_list_none hwf1 a hl⟩
  · intro h2 c2 heq2 rid hrid
    obtain ⟨a, hi, hu, _, _⟩ := hall rid hrid
    have hm := statusRecon_mono nodes heq2 rid
    exact ⟨hm.1 (by rw [hi]; rfl), hm.2 (by rw [hu]; rfl)⟩

/-- Witness for C3 at the concrete well-formed refresh state. -/
theorem C3_reservation_precedence_witness :
    WF refreshHeap refreshCluster ∧
    Cluster.RefreshInstances refreshHeap refreshCluster [] ["i-1"] =
      (match reserveRecon refreshHeap refreshCluster ["i-1"] with
       | none => none
       | some (h1, c1) => statusRecon h1 c1 []) :=
  ⟨refreshWF,
   (C3_reservation_precedence refreshHeap refreshCluster [] ["i-1"] refreshWF).1⟩

/-- C3 counterexample: after the full pass over tag listing `["i-1"]` and
instance listing `[cexNode]` (reported status `Starting`), the tag-listed
identifier's node is again a member of the starting bucket. -/
theorem C3_tagged_instance_rebucketed :
    (Cluster.RefreshInstances refreshHeap refreshCluster [cexNode] ["i-1"]).map
      (fun p => match p.2.instances "i-1" with
        | some a => inBucket p.1 p.2.starting a
        | none => false) = some true := by
  decide

/-! ## C8: disk-unresolved instances -/

/-- C8 (amended): a listed instance whose disk cannot be resolved is skipped
by its status iteration.  When the identifier already has an index record
(with an empty cached disk id) the iteration returns heap and cluster
completely unchanged, so the record stays indexed and keeps its previous
bucket membership.  But when the identifier is not yet indexed, the freshly
allocated record is discarded before the re-indexing write — the cluster
comes back unchanged, and after a whole pass whose tag listing misses the
identifier it is still absent from the index, contradicting the original
claim that it is held in the index after the pass. -/
theorem C8_disk_unresolved_skip (h : Heap) (c : Cluster) (node : AttrsT)
    (nodes : List AttrsT) (rids : List String) (id : String) :
    (∀ a, c.instances node.instanceId = some a →
      findDisk c.disks node.instanceId = none →
      (h.mem a).disk.diskId = "" →
      statusReconOne h c node = some (h, c)) ∧
    (c.instances node.instanceId = none →
      findDisk c.disks node.instanceId = none →
      statusReconOne h c node = some ((allocate h).2, c)) ∧
    (id ∉ rids → c.instances id = none → findDisk c.disks id = none →
      ∀ h2 c2, Cluster.RefreshInstances h c nodes rids = some (h2, c2) →
        c2.instances id = none) := by
  refine ⟨fun a hv hd hg => statusReconOne_skip h c node a hv hd hg,
    fun hv hd => statusReconOne_fresh_nodisk h c node hv hd, ?_⟩
  intro hid hinst hdisk h2 c2 heq
  unfold Cluster.RefreshInstances at heq
  cases hr : reserveRecon h c rids with
  | none =>
    rw [hr] at heq
    exact Option.noConfusion heq
  | some p =>
    obtain ⟨hA, cA⟩ := p
    simp only [hr] at heq
    obtain ⟨hdA, hiA⟩ := reserveRecon_other rids hr
    have hinstA : cA.instances id = none := (hiA id hid).trans hinst
    have hdiskA : findDisk cA.disks id = none := by
      rw [hdA]
      exact hdisk
    exact (statusRecon_unindexed nodes heq id hinstA hdiskA).1

/-- Witness for C8: the fresh-identifier skip at a concrete state. -/
theorem C8_disk_unresolved_skip_witness :
    refreshCluster.instances "i-9" = none ∧
    findDisk refreshCluster.disks "i-9" = none ∧
    statusReconOne refreshHeap refreshCluster ⟨"i-9", "Running", "img-9"⟩ =
      some ((allocate refreshHeap).2, refreshCluster) :=
  ⟨rfl, by decide,
   (C8_disk_unresolved_skip refreshHeap refreshCluster ⟨"i-9", "Running", "img-9"⟩
      [] [] "i-9").2.1 rfl (by decide)⟩

/-- C8 counterexample: an instance listing whose single entry `"i-1"` finds
no matching disk in an empty disk cache: the pass succeeds and allocates a
record (the allocation bound rises from 3 to 4), yet `"i-1"` is indexed
nowhere afterwards and `used` is untouched. -/
theorem C8_fresh_unresolved_not_indexed :
    (Cluster.RefreshInstances refreshHeap { refreshCluster with disks := [] }
        [⟨"i-1", "Running", "img-1"⟩] []).map
      (fun p => (p.2.instances "i-1", p.2.used "i-1", p.1.fresh)) =
      some (none, none, 4) := by
  decide

end Spore
